import Mathlib

/-!
Verification development for src/new/puzzle.js (class OceanPuzzle).

Modelling conventions.
* JavaScript numbers are modelled exactly: every quantity the program keeps
  integral (piece targets, cluster offsets, cell sizes, snap distance) lives in
  the integers; pointer coordinates live in the rationals; quantities built
  from Math.sin, Math.sqrt and Math.PI live in the reals.  Math.round rounds
  half towards plus infinity, x goes to the floor of x + 1/2 (roundHalf).
* The comparison Math.hypot(dx,dy) <= d on integer arguments is modelled by
  the decidable test snapOk; lemma snapOk_iff proves it equivalent to the
  square-root comparison on the reals.
* JS Map and Set preserve insertion order and are modelled by lists.  The
  member set of a cluster is a duplicate-free list; Set.add is append-if-new.
* crypto.randomUUID in _createGroups only needs to produce pairwise distinct
  cluster ids; it is modelled by an arbitrary injective function f applied to
  the piece id (theorems assume nothing about f beyond injectivity).
* ctx.isPointInPath is a canvas capability; _hitTest is parametrised over an
  arbitrary oracle inPath standing for the exact point-in-path test.
-/

/-- JS Math.round: round half towards plus infinity. -/
noncomputable def roundHalf (x : ℝ) : ℤ := ⌊x + 1 / 2⌋

/-- The test Math.hypot(dx,dy) <= sd of _trySnapAndMerge, as a decidable
integer predicate.  snapOk_iff shows it agrees with the real comparison. -/
def snapOk (dx dy sd : ℤ) : Bool := decide (0 ≤ sd ∧ dx * dx + dy * dy ≤ sd * sd)

/-- Board layout state: this.rows, this.cols, this.cell, this.bounds. -/
structure Board where
  rows : ℕ
  cols : ℕ
  cellW : ℤ
  cellH : ℤ
  originX : ℤ
  originY : ℤ
deriving DecidableEq

/-- ampX of _buildSharedEdges: Math.max(4, Math.floor(cell.h * 0.08)). -/
noncomputable def ampX (b : Board) : ℤ := max 4 ⌊(b.cellH : ℝ) * 0.08⌋

/-- ampY of _buildSharedEdges: Math.max(4, Math.floor(cell.w * 0.08)). -/
noncomputable def ampY (b : Board) : ℤ := max 4 ⌊(b.cellW : ℝ) * 0.08⌋

/-- The entry hEdges[r][c] built by _buildSharedEdges: 13 points (N = 12),
point i at x = round(i/N * cell.w) and
y = 0 on the border rows, else round(sin(i/N * 2 pi + (r*31 + c*17)) * ampX).
The source stores the table once; the table entry is a pure function of
(r, c), which is what this definition computes. -/
noncomputable def hEdgePoly (b : Board) (r c : ℕ) : List (ℤ × ℤ) :=
  (List.range 13).map (fun i : ℕ =>
    (roundHalf ((i : ℝ) / 12 * (b.cellW : ℝ)),
     if r = 0 ∨ r = b.rows then 0
     else roundHalf (Real.sin ((i : ℝ) / 12 * (2 * Real.pi) + ((r * 31 + c * 17 : ℕ) : ℝ)) * ((ampX b : ℤ) : ℝ))))

/-- The entry vEdges[c][r] built by _buildSharedEdges: 13 points,
point i at y = round(i/N * cell.h) and
x = 0 on the border columns, else round(sin(i/N * 2 pi + (c*37 + r*19)) * ampY). -/
noncomputable def vEdgePoly (b : Board) (c r : ℕ) : List (ℤ × ℤ) :=
  (List.range 13).map (fun i : ℕ =>
    (if c = 0 ∨ c = b.cols then 0
     else roundHalf (Real.sin ((i : ℝ) / 12 * (2 * Real.pi) + ((c * 37 + r * 19 : ℕ) : ℝ)) * ((ampY b : ℤ) : ℝ)),
     roundHalf ((i : ℝ) / 12 * (b.cellH : ℝ))))

/-- The TOP segment of the pathFn of piece (r,c), in board coordinates:
the read poly = this.hEdges[r][c], points (poly[i].x, poly[i].y), translated
by the piece target (originX + c*cellW, originY + r*cellH). -/
noncomputable def pieceTopBoundary (b : Board) (r c : ℕ) : List (ℤ × ℤ) :=
  (hEdgePoly b r c).map (fun e => (b.originX + c * b.cellW + e.1, b.originY + r * b.cellH + e.2))

/-- The BOTTOM segment of the pathFn of piece (r,c), in board coordinates:
the read poly = this.hEdges[r+1][c], points (poly[i].x, cell.h + poly[i].y)
translated by the piece target.  (The source walks these points from the far
end towards the start; the point set read is the full entry.) -/
noncomputable def pieceBottomBoundary (b : Board) (r c : ℕ) : List (ℤ × ℤ) :=
  (hEdgePoly b (r + 1) c).map
    (fun e => (b.originX + c * b.cellW + e.1, b.originY + r * b.cellH + (b.cellH + e.2)))

/-- The LEFT segment of the pathFn of piece (r,c), in board coordinates:
the read poly = this.vEdges[c][r], points (poly[i].x, poly[i].y). -/
noncomputable def pieceLeftBoundary (b : Board) (r c : ℕ) : List (ℤ × ℤ) :=
  (vEdgePoly b c r).map (fun e => (b.originX + c * b.cellW + e.1, b.originY + r * b.cellH + e.2))

/-- The RIGHT segment of the pathFn of piece (r,c), in board coordinates:
the read poly = this.vEdges[c+1][r], points (cell.w + poly[i].x, poly[i].y). -/
noncomputable def pieceRightBoundary (b : Board) (r c : ℕ) : List (ℤ × ℤ) :=
  (vEdgePoly b (c + 1) r).map
    (fun e => (b.originX + c * b.cellW + (b.cellW + e.1), b.originY + r * b.cellH + e.2))

/-- A boundary segment at the world position of a piece whose cluster offset
is (ox, oy): world = target + offset, applied on top of the board-coordinate
segment (which already contains the target). -/
noncomputable def pieceRightBoundaryWorld (b : Board) (r c : ℕ) (ox oy : ℤ) : List (ℤ × ℤ) :=
  (pieceRightBoundary b r c).map (fun e => (e.1 + ox, e.2 + oy))

/-- Left boundary of a piece translated by its cluster offset. -/
noncomputable def pieceLeftBoundaryWorld (b : Board) (r c : ℕ) (ox oy : ℤ) : List (ℤ × ℤ) :=
  (pieceLeftBoundary b r c).map (fun e => (e.1 + ox, e.2 + oy))

/-- A piece record of _createPieces (pathFn is derived, not stored: the four
boundary reads above are its translation). -/
structure Piece where
  id : ℕ
  r : ℕ
  c : ℕ
  tx : ℤ
  ty : ℤ
  sw : ℤ
  sh : ℤ
deriving DecidableEq

/-- The piece that _createPieces pushes for grid cell (r, c):
id is the row-major counter, target is bounds + cell * grid coords. -/
def mkPiece (b : Board) (r c : ℕ) : Piece :=
  { id := r * b.cols + c
    r := r
    c := c
    tx := b.originX + c * b.cellW
    ty := b.originY + r * b.cellH
    sw := b.cellW
    sh := b.cellH }

/-- _createPieces: the row-major list of pieces. -/
def createPieces (b : Board) : List Piece :=
  (List.range b.rows).flatMap (fun r => (List.range b.cols).map (fun c => mkPiece b r c))

/-- A cluster record (the source calls clusters groups): id, member set
(insertion-ordered, duplicate-free), and position offset pos. -/
structure Cluster where
  id : ℕ
  members : List ℕ
  px : ℤ
  py : ℤ
deriving DecidableEq

/-- The mutable state of OceanPuzzle that the claims are about. -/
structure PState where
  board : Board
  snapDistance : ℤ
  lockOnSnap : Bool
  pieces : List Piece
  groups : List Cluster
  pieceToGroup : ℕ → Option ℕ

/-- _pieceById: this.pieces.find(p => p.id === id). -/
def pieceById (s : PState) (pid : ℕ) : Option Piece :=
  s.pieces.find? (fun p => p.id == pid)

/-- this.groups.get(gid) on the insertion-ordered map. -/
def findCluster (s : PState) (gid : ℕ) : Option Cluster :=
  s.groups.find? (fun g => g.id == gid)

/-- _getPiece(r,c): null outside the grid, else pieces[r*cols+c]. -/
def getPiece (s : PState) (r c : ℤ) : Option Piece :=
  if r < 0 ∨ c < 0 ∨ (s.board.rows : ℤ) ≤ r ∨ (s.board.cols : ℤ) ≤ c then none
  else s.pieces[(r * s.board.cols + c).toNat]?

/-- Writing g.pos.x / g.pos.y of the cluster with id gid. -/
def setClusterPos (s : PState) (gid : ℕ) (px py : ℤ) : PState :=
  { s with groups := s.groups.map (fun g => if g.id = gid then { g with px := px, py := py } else g) }

/-- _mergeGroups(gA, gB): base is gB when gB.members.size >= gA.members.size
(so the second argument survives a tie), the other cluster is folded into it
(Set.add appends members not already present), every migrated piece id is
repointed in pieceToGroup, and the absorbed cluster is deleted.  The source
would fault if either id were absent; that branch returns the state
unchanged and is unreachable from the call site.  mergeBase is the cluster
that survives. -/
def mergeBase (gA gB : Cluster) : Cluster :=
  if gB.members.length ≥ gA.members.length then gB else gA

/-- The cluster absorbed by _mergeGroups: the other one. -/
def mergeAdd (gA gB : Cluster) : Cluster :=
  if gB.members.length ≥ gA.members.length then gA else gB

/-- The member set of the surviving cluster after the Set.add loop of
_mergeGroups: append the members not already present. -/
def mergedMembers (gA gB : Cluster) : List ℕ :=
  (mergeBase gA gB).members ++
    (mergeAdd gA gB).members.filter (fun pid => decide (pid ∉ (mergeBase gA gB).members))

def mergeGroups (s : PState) (aId bId : ℕ) : PState :=
  match findCluster s aId, findCluster s bId with
  | some gA, some gB =>
    { s with
      groups := (s.groups.filter (fun g => decide (g.id ≠ (mergeAdd gA gB).id))).map
        (fun g => if g.id = (mergeBase gA gB).id then { g with members := mergedMembers gA gB }
          else g),
      pieceToGroup := fun pid =>
        if pid ∈ (mergeAdd gA gB).members then some (mergeBase gA gB).id
        else s.pieceToGroup pid }
  | _, _ => s

/-- _createGroups: one singleton cluster per piece at offset (0,0); the
random unique id of piece p is modelled as f p.id. -/
def createGroups (s : PState) (f : ℕ → ℕ) : PState :=
  { s with
    groups := s.pieces.map (fun p => { id := f p.id, members := [p.id], px := 0, py := 0 }),
    pieceToGroup := fun pid => if s.pieces.any (fun p => p.id == pid) then some (f pid) else none }

/-- The state right after init: pieces built by _createPieces, clusters by
_createGroups. -/
def initState (b : Board) (sd : ℤ) (lock : Bool) (f : ℕ → ℕ) : PState :=
  createGroups
    { board := b
      snapDistance := sd
      lockOnSnap := lock
      pieces := createPieces b
      groups := []
      pieceToGroup := fun _ => none } f

/-- reset(): zero every cluster offset; membership untouched. -/
def reset (s : PState) : PState :=
  { s with groups := s.groups.map (fun g => { g with px := 0, py := 0 }) }

/-- The bring-to-front block of _handleDown: delete the cluster from the map
and re-insert an identical record, which moves it to the end of the
insertion order. -/
def bringToFront (s : PState) (gid : ℕ) : PState :=
  match findCluster s gid with
  | none => s
  | some g => { s with groups := s.groups.filter (fun h => decide (h.id ≠ gid)) ++ [g] }

/-- The neighbour list of _trySnapAndMerge: left, right, up, down, with the
null entries of _getPiece filtered out. -/
def neighborsOf (s : PState) (p : Piece) : List Piece :=
  [getPiece s (p.r : ℤ) ((p.c : ℤ) - 1), getPiece s (p.r : ℤ) ((p.c : ℤ) + 1),
   getPiece s ((p.r : ℤ) - 1) (p.c : ℤ), getPiece s ((p.r : ℤ) + 1) (p.c : ℤ)].filterMap id

/-- The inner neighbour loop of _trySnapAndMerge for member piece p of the
moved cluster gid.  Per neighbour q: skip when q is in the moved cluster;
otherwise ideal = q.target + pos(cluster of q) - p.target, and when the
current offset of the moved cluster is within snapDistance of ideal, set the
moved offset to ideal (Math.round of an integer is itself) and merge, then
break out (return merged = true).  Lookups that the source would fault on
(a piece id without a live cluster) skip the neighbour; they are unreachable
under the partition invariant. -/
def tryNeighbors (s : PState) (gid : ℕ) (p : Piece) : List Piece → PState × Bool
  | [] => (s, false)
  | q :: rest =>
    match s.pieceToGroup q.id with
    | none => tryNeighbors s gid p rest
    | some gidQ =>
      if gidQ = gid then tryNeighbors s gid p rest
      else
        match findCluster s gidQ, findCluster s gid with
        | some gQ, some gM =>
          if snapOk (q.tx + gQ.px - p.tx - gM.px) (q.ty + gQ.py - p.ty - gM.py) s.snapDistance then
            (mergeGroups (setClusterPos s gid (q.tx + gQ.px - p.tx) (q.ty + gQ.py - p.ty)) gid gidQ,
             true)
          else tryNeighbors s gid p rest
        | _, _ => tryNeighbors s gid p rest

/-- The outer member loop of _trySnapAndMerge: iterate the member set by
index (JS Set iteration visits entries in insertion order, including entries
appended during the iteration, which happens when the moved cluster absorbs
another).  After each member, stop when a merge happened and lockOnSnap is
set.  When the moved cluster was itself absorbed (deleted from the map) the
source keeps iterating the detached member set object, whose list no longer
changes: the fallback to the previous list models exactly that.  fuel bounds
the iteration; trySnapAndMerge passes more fuel than there are pieces, which
the member list (duplicate-free piece ids) never exceeds. -/
def snapLoop (gid : ℕ) : PState → List ℕ → ℕ → Bool → ℕ → PState
  | s, _, _, _, 0 => s
  | s, mem, i, merged, fuel + 1 =>
    match mem[i]? with
    | none => s
    | some pid =>
      match pieceById s pid with
      | none => s
      | some p =>
        let res := tryNeighbors s gid p (neighborsOf s p)
        let merged2 := merged || res.2
        if merged2 && s.lockOnSnap then res.1
        else
          snapLoop gid res.1
            (match findCluster res.1 gid with
             | some g => g.members
             | none => mem)
            (i + 1) merged2 fuel

/-- _trySnapAndMerge(movedG) where movedG = groups.get(gid) as in _handleUp. -/
def trySnapAndMerge (s : PState) (gid : ℕ) : PState :=
  match findCluster s gid with
  | none => s
  | some g => snapLoop gid s g.members 0 false (s.pieces.length + 1)

/-- The inner member loop of _hitTest over the reversed member list: reject
by the axis-aligned bounding box of the cell rectangle first, then consult
the exact point-in-path oracle at path-local coordinates. -/
def hitTestMembers (inPath : Piece → ℚ → ℚ → Bool) (x y : ℚ) (g : Cluster) :
    List Piece → Option Piece
  | [] => none
  | p :: rest =>
    if x < ((p.tx + g.px : ℤ) : ℚ) ∨ y < ((p.ty + g.py : ℤ) : ℚ) ∨
        x > ((p.tx + g.px : ℤ) : ℚ) + (p.sw : ℚ) ∨ y > ((p.ty + g.py : ℤ) : ℚ) + (p.sh : ℚ) then
      hitTestMembers inPath x y g rest
    else if inPath p (x - ((p.tx + g.px : ℤ) : ℚ)) (y - ((p.ty + g.py : ℤ) : ℚ)) then some p
    else hitTestMembers inPath x y g rest

/-- The outer cluster loop of _hitTest over the reversed cluster list. -/
def hitTestClusters (s : PState) (inPath : Piece → ℚ → ℚ → Bool) (x y : ℚ) :
    List Cluster → Option Piece
  | [] => none
  | g :: gs =>
    match hitTestMembers inPath x y g ((g.members.filterMap (pieceById s)).reverse) with
    | some p => some p
    | none => hitTestClusters s inPath x y gs

/-- _hitTest(x,y): clusters most-recent-first, members in reverse insertion
order, AABB pre-check, then the exact path test. -/
def hitTest (s : PState) (inPath : Piece → ℚ → ℚ → Bool) (x y : ℚ) : Option Piece :=
  hitTestClusters s inPath x y s.groups.reverse

/-- The eased per-frame step of _update, before the positions are written
back: dx,dy = (target - pos) * dragLerp, clamped to magnitude maxStep when
the magnitude exceeds it (the source guards the division with len || 1). -/
noncomputable def easedStep (px py tx ty : ℤ) (lerp maxStep : ℝ) : ℝ × ℝ :=
  let dx : ℝ := ((tx - px : ℤ) : ℝ) * lerp
  let dy : ℝ := ((ty - py : ℤ) : ℝ) * lerp
  let len : ℝ := Real.sqrt (dx ^ 2 + dy ^ 2)
  if maxStep < len then
    (dx * (maxStep / (if len = 0 then 1 else len)), dy * (maxStep / (if len = 0 then 1 else len)))
  else (dx, dy)

/-- The position write-back of _update: g.pos = Math.round(g.pos + step),
componentwise. -/
noncomputable def updateStep (px py tx ty : ℤ) (lerp maxStep : ℝ) : ℤ × ℤ :=
  (roundHalf ((px : ℝ) + (easedStep px py tx ty lerp maxStep).1),
   roundHalf ((py : ℝ) + (easedStep px py tx ty lerp maxStep).2))

/-- The ids of all pieces. -/
def pieceIds (s : PState) : List ℕ := s.pieces.map (fun p => p.id)

/-- The ids of all clusters. -/
def clusterIds (s : PState) : List ℕ := s.groups.map (fun g => g.id)

/-- The concatenation of all member sets. -/
def allMembers (s : PState) : List ℕ := s.groups.flatMap (fun g => g.members)

/-- The piece-to-cluster index is valid: every piece id is mapped to a live
cluster whose member set contains it. -/
def IndexOk (s : PState) : Prop :=
  ∀ pid ∈ pieceIds s, ∃ g ∈ s.groups, s.pieceToGroup pid = some g.id ∧ pid ∈ g.members

/-- The partition invariant of claim C4: the member sets cover exactly the
piece ids, no piece id lies in two clusters, and the index is valid. -/
def PartitionInv (s : PState) : Prop :=
  (allMembers s).Perm (pieceIds s) ∧
  s.groups.Pairwise (fun g h => ∀ pid ∈ g.members, pid ∉ h.members) ∧
  IndexOk s

/-- The full inductive invariant: distinct piece ids, distinct cluster ids,
covering member sets, valid index. -/
def WF (s : PState) : Prop :=
  (pieceIds s).Nodup ∧ (clusterIds s).Nodup ∧ (allMembers s).Perm (pieceIds s) ∧ IndexOk s

/-- States reachable from a fresh board through the operations that touch the
cluster registry: merges (with distinct live ids, as guaranteed at the only
call site), offset writes (drag update, snap, shuffle), bring-to-front, and
reset. -/
inductive Reachable (b : Board) (sd : ℤ) (lock : Bool) : PState → Prop where
  | init (f : ℕ → ℕ) (hf : Function.Injective f) : Reachable b sd lock (initState b sd lock f)
  | merge {s : PState} (aId bId : ℕ) (h : Reachable b sd lock s)
      (ha : aId ∈ clusterIds s) (hb : bId ∈ clusterIds s) (hne : aId ≠ bId) :
      Reachable b sd lock (mergeGroups s aId bId)
  | setPos {s : PState} (gid : ℕ) (px py : ℤ) (h : Reachable b sd lock s) :
      Reachable b sd lock (setClusterPos s gid px py)
  | front {s : PState} (gid : ℕ) (h : Reachable b sd lock s) :
      Reachable b sd lock (bringToFront s gid)
  | zero {s : PState} (h : Reachable b sd lock s) : Reachable b sd lock (reset s)

/-- The 1 by 2 scenario of claim C3: fresh board with 50 by 50 cells at
origin (0,0), piece 1 grabbed (its cluster brought to front as _handleDown
does) and its cluster dragged to offset (vx, vy). -/
def dragBoard12 (vx vy : ℤ) : PState :=
  setClusterPos (bringToFront (initState ⟨1, 2, 50, 50, 0, 0⟩ 14 true (fun n => n)) 1) 1 vx vy

/-- Scenario A of claim C1: 1 by 2 board, cluster of piece 1 parked at
(3, 0), cluster of piece 0 dragged to (50, 0), within snapDistance of the
ideal offset (53, 0). -/
def snapBoardA : PState :=
  setClusterPos (setClusterPos (initState ⟨1, 2, 50, 50, 0, 0⟩ 14 true (fun n => n)) 1 3 0)
    0 50 0

/-- Scenario B of claim C1: 1 by 3 board, cluster of piece 0 parked at
(95, 0), cluster of piece 1 dragged to (48, 0): both the left neighbour 0
(ideal 45, distance 3) and the right neighbour 2 (ideal 50, distance 2)
qualify, and the scan takes the left one first. -/
def snapBoardB : PState :=
  setClusterPos (setClusterPos (initState ⟨1, 3, 50, 50, 0, 0⟩ 14 true (fun n => n)) 0 95 0)
    1 48 0

/-- The drag scenario of claim C1's amended statement: the same 1 by 2 board
but with piece 0 grabbed and its cluster dragged to offset (vx, vy); the
ideal aligning offset towards piece 1 is (50, 0). -/
def dragBoard12P0 (vx vy : ℤ) : PState :=
  setClusterPos (bringToFront (initState ⟨1, 2, 50, 50, 0, 0⟩ 14 true (fun n => n)) 0) 0 vx vy

/-- The decidable snap test agrees with the hypot comparison of the source. -/
theorem snapOk_iff (dx dy sd : ℤ) :
    snapOk dx dy sd = true ↔ Real.sqrt ((dx : ℝ) ^ 2 + (dy : ℝ) ^ 2) ≤ (sd : ℝ) := by
  simp only [snapOk, decide_eq_true_eq]
  constructor
  · rintro ⟨h0, h⟩
    have hsd : (0 : ℝ) ≤ (sd : ℝ) := by exact_mod_cast h0
    have hcast : (dx : ℝ) * dx + (dy : ℝ) * dy ≤ (sd : ℝ) * sd := by exact_mod_cast h
    have h2 : (dx : ℝ) ^ 2 + (dy : ℝ) ^ 2 ≤ (sd : ℝ) ^ 2 := by nlinarith [hcast]
    calc Real.sqrt ((dx : ℝ) ^ 2 + (dy : ℝ) ^ 2) ≤ Real.sqrt ((sd : ℝ) ^ 2) :=
          Real.sqrt_le_sqrt h2
      _ = (sd : ℝ) := Real.sqrt_sq hsd
  · intro h
    have hnn : (0 : ℝ) ≤ Real.sqrt ((dx : ℝ) ^ 2 + (dy : ℝ) ^ 2) := Real.sqrt_nonneg _
    have hsd : (0 : ℝ) ≤ (sd : ℝ) := le_trans hnn h
    have h0 : (0 : ℤ) ≤ sd := by exact_mod_cast hsd
    refine ⟨h0, ?_⟩
    have hs : (dx : ℝ) ^ 2 + (dy : ℝ) ^ 2 ≤ (sd : ℝ) ^ 2 := by
      have := Real.sq_sqrt (by positivity : (0 : ℝ) ≤ (dx : ℝ) ^ 2 + (dy : ℝ) ^ 2)
      nlinarith [h, hnn, this]
    have : (dx * dx + dy * dy : ℝ) ≤ (sd : ℝ) * (sd : ℝ) := by nlinarith [hs]
    exact_mod_cast this

/-- Point i of a horizontal edge entry, spelled out. -/
theorem hEdgePoly_getElem (b : Board) (r c i : ℕ) (hi : i < 13) :
    (hEdgePoly b r c)[i]? = some
      (roundHalf ((i : ℝ) / 12 * (b.cellW : ℝ)),
       if r = 0 ∨ r = b.rows then 0
       else roundHalf (Real.sin ((i : ℝ) / 12 * (2 * Real.pi) + ((r * 31 + c * 17 : ℕ) : ℝ)) *
         ((ampX b : ℤ) : ℝ))) := by
  unfold hEdgePoly
  rw [List.getElem?_map, List.getElem?_range hi]
  rfl

/-- Point i of a vertical edge entry, spelled out. -/
theorem vEdgePoly_getElem (b : Board) (c r i : ℕ) (hi : i < 13) :
    (vEdgePoly b c r)[i]? = some
      (if c = 0 ∨ c = b.cols then 0
       else roundHalf (Real.sin ((i : ℝ) / 12 * (2 * Real.pi) + ((c * 37 + r * 19 : ℕ) : ℝ)) *
         ((ampY b : ℤ) : ℝ)),
       roundHalf ((i : ℝ) / 12 * (b.cellH : ℝ))) := by
  unfold vEdgePoly
  rw [List.getElem?_map, List.getElem?_range hi]
  rfl

/-- Math.round of an integer is that integer. -/
theorem roundHalf_intCast (n : ℤ) : roundHalf (n : ℝ) = n := by
  unfold roundHalf
  rw [add_comm, Int.floor_add_int]
  norm_num

/-- Math.round is monotone. -/
theorem roundHalf_mono {x y : ℝ} (h : x ≤ y) : roundHalf x ≤ roundHalf y :=
  Int.floor_mono (by linarith)

/-- C9: reset is idempotent and membership-preserving: a second reset changes
nothing (all offsets are already zero), and reset touches neither the number
of clusters nor any member set, so it never un-merges. -/
theorem reset_idempotent_membership (s : PState) :
    reset (reset s) = reset s ∧
    (∀ g ∈ (reset s).groups, g.px = 0 ∧ g.py = 0) ∧
    (reset s).groups.map (fun g => (g.id, g.members)) = s.groups.map (fun g => (g.id, g.members)) ∧
    (reset s).groups.length = s.groups.length := by
  refine ⟨?_, ?_, ?_, ?_⟩
  · have h : ((fun g : Cluster => { g with px := 0, py := 0 }) ∘
        fun g : Cluster => { g with px := 0, py := 0 }) =
        fun g : Cluster => { g with px := 0, py := 0 } := funext fun g => rfl
    simp only [reset, List.map_map, h]
  · intro g hg
    simp only [reset, List.mem_map] at hg
    obtain ⟨g', _, rfl⟩ := hg
    exact ⟨rfl, rfl⟩
  · simp only [reset, List.map_map]
    rfl
  · simp [reset]

/-- C8: every perimeter edge polyline is straight: on border rows every point
of the horizontal edge has lateral (y) offset exactly zero, and on border
columns every point of the vertical edge has lateral (x) offset exactly
zero. -/
theorem perimeter_edges_straight (b : Board) :
    (∀ r c : ℕ, (r = 0 ∨ r = b.rows) → ∀ p ∈ hEdgePoly b r c, p.2 = 0) ∧
    (∀ c r : ℕ, (c = 0 ∨ c = b.cols) → ∀ p ∈ vEdgePoly b c r, p.1 = 0) := by
  constructor
  · intro r c hr p hp
    simp only [hEdgePoly, List.mem_map, List.mem_range] at hp
    obtain ⟨i, _, rfl⟩ := hp
    simp [if_pos hr]
  · intro c r hc p hp
    simp only [vEdgePoly, List.mem_map, List.mem_range] at hp
    obtain ⟨i, _, rfl⟩ := hp
    simp [if_pos hc]

/-- C8 witness: on a 1 by 1 board the top-left point of the top border edge
lies on the polyline and has zero lateral offset; likewise for the left
border edge. -/
theorem perimeter_edges_straight_witness :
    (((0 : ℤ), (0 : ℤ)) ∈ hEdgePoly ⟨1, 1, 50, 50, 0, 0⟩ 0 0 ∧ ((0 : ℤ), (0 : ℤ)).2 = 0) ∧
    (((0 : ℤ), (0 : ℤ)) ∈ vEdgePoly ⟨1, 1, 50, 50, 0, 0⟩ 0 0 ∧ ((0 : ℤ), (0 : ℤ)).1 = 0) := by
  have hget1 : (hEdgePoly ⟨1, 1, 50, 50, 0, 0⟩ 0 0)[0]? = some ((0 : ℤ), (0 : ℤ)) := by
    rw [hEdgePoly_getElem _ _ _ 0 (by norm_num)]
    norm_num
    simpa using roundHalf_intCast 0
  have hget2 : (vEdgePoly ⟨1, 1, 50, 50, 0, 0⟩ 0 0)[0]? = some ((0 : ℤ), (0 : ℤ)) := by
    rw [vEdgePoly_getElem _ _ _ 0 (by norm_num)]
    norm_num
    simpa using roundHalf_intCast 0
  have hmem1 : ((0 : ℤ), (0 : ℤ)) ∈ hEdgePoly ⟨1, 1, 50, 50, 0, 0⟩ 0 0 :=
    List.getElem?_mem hget1
  have hmem2 : ((0 : ℤ), (0 : ℤ)) ∈ vEdgePoly ⟨1, 1, 50, 50, 0, 0⟩ 0 0 :=
    List.getElem?_mem hget2
  exact ⟨⟨hmem1, (perimeter_edges_straight ⟨1, 1, 50, 50, 0, 0⟩).1 0 0 (Or.inl rfl) _ hmem1⟩,
         ⟨hmem2, (perimeter_edges_straight ⟨1, 1, 50, 50, 0, 0⟩).2 0 0 (Or.inl rfl) _ hmem2⟩⟩

/-- C2: for every interior edge of any board with at least one row and one
column, the bottom boundary read of piece (r,c) and the top boundary read of
piece (r+1,c) are point-for-point the same polyline in board coordinates
(both read the single table entry hEdges[r+1][c]); likewise the right read
of (r,c) and the left read of (r,c+1) both come from vEdges[c+1][r].
Nothing is regenerated per piece: the reads are lookups of one shared entry. -/
theorem shared_edge_reads_eq (b : Board) (_hrows : 1 ≤ b.rows) (_hcols : 1 ≤ b.cols) :
    (∀ r c : ℕ, r + 1 < b.rows → c < b.cols →
      pieceBottomBoundary b r c = pieceTopBoundary b (r + 1) c) ∧
    (∀ r c : ℕ, r < b.rows → c + 1 < b.cols →
      pieceRightBoundary b r c = pieceLeftBoundary b r (c + 1)) := by
  constructor
  · intro r c _ _
    unfold pieceBottomBoundary pieceTopBoundary
    apply List.map_congr_left
    intro e _
    have : (b.originY : ℤ) + (r : ℤ) * b.cellH + (b.cellH + e.2) =
        b.originY + ((r : ℕ) + 1 : ℕ) * b.cellH + e.2 := by push_cast; ring
    simp only [this]
  · intro r c _ _
    unfold pieceRightBoundary pieceLeftBoundary
    apply List.map_congr_left
    intro e _
    have : (b.originX : ℤ) + (c : ℤ) * b.cellW + (b.cellW + e.1) =
        b.originX + ((c : ℕ) + 1 : ℕ) * b.cellW + e.1 := by push_cast; ring
    simp only [this]

/-- C2 witness: on a 2 by 2 board the interior edge between (0,0) and (1,0)
and the one between (0,0) and (0,1) are read identically from both sides. -/
theorem shared_edge_reads_eq_witness :
    pieceBottomBoundary ⟨2, 2, 50, 50, 0, 0⟩ 0 0 = pieceTopBoundary ⟨2, 2, 50, 50, 0, 0⟩ 1 0 ∧
    pieceRightBoundary ⟨2, 2, 50, 50, 0, 0⟩ 0 0 = pieceLeftBoundary ⟨2, 2, 50, 50, 0, 0⟩ 0 1 :=
  ⟨(shared_edge_reads_eq ⟨2, 2, 50, 50, 0, 0⟩ (by decide) (by decide)).1 0 0 (by decide) (by decide),
   (shared_edge_reads_eq ⟨2, 2, 50, 50, 0, 0⟩ (by decide) (by decide)).2 0 0 (by decide) (by decide)⟩

/-- Bounds for sin 31 (radians): 31 is 10 pi minus about 0.41593, so sin 31
is about -0.404. -/
theorem sin_31_bounds : -0.41593 < Real.sin 31 ∧ Real.sin 31 < -0.397 := by
  have hpil : (3.141592 : ℝ) < Real.pi := Real.pi_gt_d6
  have hpiu : Real.pi < 3.141593 := Real.pi_lt_d6
  have hper : Real.sin (31 - 10 * Real.pi) = Real.sin 31 := by
    have e : (31 : ℝ) - 10 * Real.pi =
        31 - 2 * Real.pi - 2 * Real.pi - 2 * Real.pi - 2 * Real.pi - 2 * Real.pi := by ring
    rw [e, Real.sin_sub_two_pi, Real.sin_sub_two_pi, Real.sin_sub_two_pi, Real.sin_sub_two_pi,
      Real.sin_sub_two_pi]
  have hneg : Real.sin 31 = -Real.sin (10 * Real.pi - 31) := by
    rw [← hper, show (31 : ℝ) - 10 * Real.pi = -(10 * Real.pi - 31) by ring, Real.sin_neg]
  have hu1 : (0.41592 : ℝ) < 10 * Real.pi - 31 := by linarith
  have hu2 : (10 : ℝ) * Real.pi - 31 < 0.41593 := by linarith
  have hup : Real.sin (10 * Real.pi - 31) < 0.41593 :=
    lt_trans (Real.sin_lt (by linarith)) hu2
  have hlo : (0.397 : ℝ) < Real.sin (10 * Real.pi - 31) := by
    have hcube := Real.sin_gt_sub_cube (by linarith : (0 : ℝ) < 10 * Real.pi - 31)
      (by linarith : (10 : ℝ) * Real.pi - 31 ≤ 1)
    have hu0 : (0 : ℝ) < 10 * Real.pi - 31 := by linarith
    have hsq : (10 * Real.pi - 31) ^ 2 < 0.173 := by nlinarith [hu0, hu2]
    have hcb : (10 * Real.pi - 31) ^ 3 < 0.072 := by nlinarith [hsq, hu0, hu2]
    linarith [hcube, hu1, hcb]
  constructor
  · rw [hneg]; linarith
  · rw [hneg]; linarith

/-- C6 counterexample: on a 2 by 1 board with 50 by 50 cells, the interior
horizontal edge (r = 1, c = 0) has phase 31 and amplitude 4; its first point
(parameter t = 0) is (0, -2): the lateral offset at the cell corner is -2,
not 0, so the polyline is not pinned exactly to the two cell corners. -/
theorem edge_endpoint_cex :
    (hEdgePoly ⟨2, 1, 50, 50, 0, 0⟩ 1 0)[0]? = some (0, -2) ∧ ((-2 : ℤ) ≠ 0) := by
  refine ⟨?_, by decide⟩
  rw [hEdgePoly_getElem _ _ _ 0 (by norm_num)]
  have hamp : ampX ⟨2, 1, 50, 50, 0, 0⟩ = 4 := by
    unfold ampX
    norm_num
  have hsin := sin_31_bounds
  have hcond : ¬ ((1 : ℕ) = 0 ∨ (1 : ℕ) = (⟨2, 1, 50, 50, 0, 0⟩ : Board).rows) := by simp
  rw [if_neg hcond, hamp]
  have harg : ((0 : ℕ) : ℝ) / 12 * (2 * Real.pi) + ((1 * 31 + 0 * 17 : ℕ) : ℝ) = 31 := by
    norm_num
  rw [harg]
  have hx : roundHalf (((0 : ℕ) : ℝ) / 12 * ((50 : ℤ) : ℝ)) = 0 := by
    norm_num
    simpa using roundHalf_intCast 0
  have hy : roundHalf (Real.sin 31 * ((4 : ℤ) : ℝ)) = -2 := by
    unfold roundHalf
    rw [Int.floor_eq_iff]
    constructor
    · push_cast
      nlinarith [hsin.1, hsin.2]
    · push_cast
      nlinarith [hsin.1, hsin.2]
  rw [hx, hy]

/-- C6 amended: every edge polyline is monotone (non-decreasing) along its
primary axis, its first and last points have primary coordinate exactly 0 and
cellSize, and the two endpoints carry the same lateral offset (the sine wave
has period one edge length); on perimeter edges that common lateral offset is
zero, but on interior edges it is round(sin(phase) * amp), in general
nonzero, so the endpoints are not pinned to the cell corners. -/
theorem edge_poly_monotone_endpoints (b : Board) (hW : 0 ≤ b.cellW) (hH : 0 ≤ b.cellH)
    (r c : ℕ) :
    (∀ i j : ℕ, i ≤ j → j < 13 → ∀ p q : ℤ × ℤ,
      (hEdgePoly b r c)[i]? = some p → (hEdgePoly b r c)[j]? = some q → p.1 ≤ q.1) ∧
    (∀ p : ℤ × ℤ, (hEdgePoly b r c)[0]? = some p → p.1 = 0) ∧
    (∀ p : ℤ × ℤ, (hEdgePoly b r c)[12]? = some p → p.1 = b.cellW) ∧
    (∀ p q : ℤ × ℤ, (hEdgePoly b r c)[0]? = some p → (hEdgePoly b r c)[12]? = some q →
      p.2 = q.2) ∧
    (∀ i j : ℕ, i ≤ j → j < 13 → ∀ p q : ℤ × ℤ,
      (vEdgePoly b c r)[i]? = some p → (vEdgePoly b c r)[j]? = some q → p.2 ≤ q.2) ∧
    (∀ p : ℤ × ℤ, (vEdgePoly b c r)[0]? = some p → p.2 = 0) ∧
    (∀ p : ℤ × ℤ, (vEdgePoly b c r)[12]? = some p → p.2 = b.cellH) ∧
    (∀ p q : ℤ × ℤ, (vEdgePoly b c r)[0]? = some p → (vEdgePoly b c r)[12]? = some q →
      p.1 = q.1) := by
  have hWr : (0 : ℝ) ≤ (b.cellW : ℝ) := by exact_mod_cast hW
  have hHr : (0 : ℝ) ≤ (b.cellH : ℝ) := by exact_mod_cast hH
  have hper : ∀ ph : ℝ, Real.sin (((12 : ℕ) : ℝ) / 12 * (2 * Real.pi) + ph) = Real.sin ph := by
    intro ph
    have : ((12 : ℕ) : ℝ) / 12 * (2 * Real.pi) + ph = ph + 2 * Real.pi := by push_cast; ring
    rw [this, Real.sin_add_two_pi]
  have hmono : ∀ z : ℤ, 0 ≤ z → ∀ i j : ℕ, i ≤ j →
      roundHalf ((i : ℝ) / 12 * (z : ℝ)) ≤ roundHalf ((j : ℝ) / 12 * (z : ℝ)) := by
    intro z hz i j hij
    apply roundHalf_mono
    have hzr : (0 : ℝ) ≤ (z : ℝ) := by exact_mod_cast hz
    have hijr : (i : ℝ) ≤ (j : ℝ) := by exact_mod_cast hij
    have : (i : ℝ) / 12 ≤ (j : ℝ) / 12 := by linarith
    nlinarith [this, hzr]
  have hzero : ∀ z : ℤ, roundHalf (((0 : ℕ) : ℝ) / 12 * (z : ℝ)) = 0 := by
    intro z
    norm_num
    simpa using roundHalf_intCast 0
  have hfull : ∀ z : ℤ, roundHalf (((12 : ℕ) : ℝ) / 12 * (z : ℝ)) = z := by
    intro z
    norm_num
    exact roundHalf_intCast z
  refine ⟨?_, ?_, ?_, ?_, ?_, ?_, ?_, ?_⟩
  · intro i j hij hj p q hp hq
    rw [hEdgePoly_getElem _ _ _ i (lt_of_le_of_lt hij hj)] at hp
    rw [hEdgePoly_getElem _ _ _ j hj] at hq
    cases hp; cases hq
    exact hmono _ hW i j hij
  · intro p hp
    rw [hEdgePoly_getElem _ _ _ 0 (by norm_num)] at hp
    cases hp
    exact hzero _
  · intro p hp
    rw [hEdgePoly_getElem _ _ _ 12 (by norm_num)] at hp
    cases hp
    exact hfull _
  · intro p q hp hq
    rw [hEdgePoly_getElem _ _ _ 0 (by norm_num)] at hp
    rw [hEdgePoly_getElem _ _ _ 12 (by norm_num)] at hq
    cases hp; cases hq
    by_cases hb : r = 0 ∨ r = b.rows
    · simp [hb]
    · simp only [if_neg hb]
      rw [hper]
      norm_num
  · intro i j hij hj p q hp hq
    rw [vEdgePoly_getElem _ _ _ i (lt_of_le_of_lt hij hj)] at hp
    rw [vEdgePoly_getElem _ _ _ j hj] at hq
    cases hp; cases hq
    exact hmono _ hH i j hij
  · intro p hp
    rw [vEdgePoly_getElem _ _ _ 0 (by norm_num)] at hp
    cases hp
    exact hzero _
  · intro p hp
    rw [vEdgePoly_getElem _ _ _ 12 (by norm_num)] at hp
    cases hp
    exact hfull _
  · intro p q hp hq
    rw [vEdgePoly_getElem _ _ _ 0 (by norm_num)] at hp
    rw [vEdgePoly_getElem _ _ _ 12 (by norm_num)] at hq
    cases hp; cases hq
    by_cases hb : c = 0 ∨ c = b.cols
    · simp [hb]
    · simp only [if_neg hb]
      rw [hper]
      norm_num

/-- C6 witness: on a 1 by 1 board the top edge is monotone between its first
and last point, which sit at primary coordinates 0 and 50. -/
theorem edge_poly_monotone_endpoints_witness :
    (0 : ℤ) ≤ 50 ∧
    (∀ p : ℤ × ℤ, (hEdgePoly ⟨1, 1, 50, 50, 0, 0⟩ 0 0)[0]? = some p → p.1 = 0) ∧
    (∀ p : ℤ × ℤ, (hEdgePoly ⟨1, 1, 50, 50, 0, 0⟩ 0 0)[12]? = some p → p.1 = 50) :=
  ⟨by decide,
   (edge_poly_monotone_endpoints ⟨1, 1, 50, 50, 0, 0⟩ (by decide) (by decide) 0 0).2.1,
   (edge_poly_monotone_endpoints ⟨1, 1, 50, 50, 0, 0⟩ (by decide) (by decide) 0 0).2.2.1⟩

/-- When the eased step exceeds maxStep, _update scales it to magnitude
exactly maxStep before the rounded write-back. -/
theorem easedStep_clamped (px py tx ty : ℤ) (lerp maxStep : ℝ) (h0 : 0 ≤ maxStep)
    (hbig : maxStep <
      Real.sqrt ((((tx - px : ℤ) : ℝ) * lerp) ^ 2 + (((ty - py : ℤ) : ℝ) * lerp) ^ 2)) :
    easedStep px py tx ty lerp maxStep =
      (((tx - px : ℤ) : ℝ) * lerp * (maxStep /
         Real.sqrt ((((tx - px : ℤ) : ℝ) * lerp) ^ 2 + (((ty - py : ℤ) : ℝ) * lerp) ^ 2)),
       ((ty - py : ℤ) : ℝ) * lerp * (maxStep /
         Real.sqrt ((((tx - px : ℤ) : ℝ) * lerp) ^ 2 + (((ty - py : ℤ) : ℝ) * lerp) ^ 2))) ∧
    Real.sqrt ((easedStep px py tx ty lerp maxStep).1 ^ 2 +
      (easedStep px py tx ty lerp maxStep).2 ^ 2) = maxStep := by
  have hLpos : 0 < Real.sqrt ((((tx - px : ℤ) : ℝ) * lerp) ^ 2 +
      (((ty - py : ℤ) : ℝ) * lerp) ^ 2) := lt_of_le_of_lt h0 hbig
  have heq : easedStep px py tx ty lerp maxStep =
      (((tx - px : ℤ) : ℝ) * lerp * (maxStep /
         Real.sqrt ((((tx - px : ℤ) : ℝ) * lerp) ^ 2 + (((ty - py : ℤ) : ℝ) * lerp) ^ 2)),
       ((ty - py : ℤ) : ℝ) * lerp * (maxStep /
         Real.sqrt ((((tx - px : ℤ) : ℝ) * lerp) ^ 2 + (((ty - py : ℤ) : ℝ) * lerp) ^ 2))) := by
    simp only [easedStep]
    rw [if_pos hbig, if_neg (ne_of_gt hLpos)]
  refine ⟨heq, ?_⟩
  rw [heq]
  set dx : ℝ := ((tx - px : ℤ) : ℝ) * lerp with hdx
  set dy : ℝ := ((ty - py : ℤ) : ℝ) * lerp with hdy
  set L : ℝ := Real.sqrt (dx ^ 2 + dy ^ 2) with hL
  have hLpos2 : 0 < L := hLpos
  have hL2 : L ^ 2 = dx ^ 2 + dy ^ 2 := Real.sq_sqrt (by positivity)
  have hexp : (dx * (maxStep / L)) ^ 2 + (dy * (maxStep / L)) ^ 2 =
      (dx ^ 2 + dy ^ 2) * (maxStep / L) ^ 2 := by ring
  rw [hexp, ← hL2]
  rw [show L ^ 2 * (maxStep / L) ^ 2 = (L * (maxStep / L)) ^ 2 by ring]
  rw [mul_div_cancel₀ maxStep (ne_of_gt hLpos2)]
  exact Real.sqrt_sq h0

/-- C7 amended: when the pointer moves the desired position far enough that
the eased step (desired minus current, times dragLerp) exceeds maxStepPerFrame
in magnitude, the step applied that frame is the eased step rescaled to
magnitude exactly maxStepPerFrame with its direction preserved; the stored
position change is that step rounded componentwise (Math.round on each
coordinate), so the realised per-frame change can differ from
maxStepPerFrame in magnitude by the rounding. -/
theorem step_clamp_amended (px py tx ty : ℤ) (lerp maxStep : ℝ) (h0 : 0 ≤ maxStep)
    (hbig : maxStep <
      Real.sqrt ((((tx - px : ℤ) : ℝ) * lerp) ^ 2 + (((ty - py : ℤ) : ℝ) * lerp) ^ 2)) :
    Real.sqrt ((easedStep px py tx ty lerp maxStep).1 ^ 2 +
      (easedStep px py tx ty lerp maxStep).2 ^ 2) = maxStep ∧
    easedStep px py tx ty lerp maxStep =
      (((tx - px : ℤ) : ℝ) * lerp * (maxStep /
         Real.sqrt ((((tx - px : ℤ) : ℝ) * lerp) ^ 2 + (((ty - py : ℤ) : ℝ) * lerp) ^ 2)),
       ((ty - py : ℤ) : ℝ) * lerp * (maxStep /
         Real.sqrt ((((tx - px : ℤ) : ℝ) * lerp) ^ 2 + (((ty - py : ℤ) : ℝ) * lerp) ^ 2))) ∧
    updateStep px py tx ty lerp maxStep =
      (roundHalf ((px : ℝ) + (easedStep px py tx ty lerp maxStep).1),
       roundHalf ((py : ℝ) + (easedStep px py tx ty lerp maxStep).2)) :=
  ⟨(easedStep_clamped px py tx ty lerp maxStep h0 hbig).2,
   (easedStep_clamped px py tx ty lerp maxStep h0 hbig).1, rfl⟩

/-- C7 amended witness: a drag from (0,0) towards (1000,0) with dragLerp 1/5
and maxStep 10 has eased length 200, and the clamped step has magnitude
exactly 10. -/
theorem step_clamp_amended_witness :
    (0 : ℝ) ≤ 10 ∧
    (10 : ℝ) <
      Real.sqrt ((((1000 - 0 : ℤ) : ℝ) * (1 / 5)) ^ 2 + (((0 - 0 : ℤ) : ℝ) * (1 / 5)) ^ 2) ∧
    Real.sqrt ((easedStep 0 0 1000 0 (1 / 5) 10).1 ^ 2 +
      (easedStep 0 0 1000 0 (1 / 5) 10).2 ^ 2) = 10 := by
  have hbig : (10 : ℝ) <
      Real.sqrt ((((1000 - 0 : ℤ) : ℝ) * (1 / 5)) ^ 2 + (((0 - 0 : ℤ) : ℝ) * (1 / 5)) ^ 2) := by
    have : ((((1000 - 0 : ℤ) : ℝ) * (1 / 5)) ^ 2 + (((0 - 0 : ℤ) : ℝ) * (1 / 5)) ^ 2) =
        (200 : ℝ) ^ 2 := by norm_num
    rw [this, Real.sqrt_sq (by norm_num : (0 : ℝ) ≤ 200)]
    norm_num
  exact ⟨by norm_num, hbig, (step_clamp_amended 0 0 1000 0 (1 / 5) 10 (by norm_num) hbig).1⟩

/-- C7 counterexample: dragging from (0,0) with desired position (1000,1000),
dragLerp 1/5 and maxStepPerFrame 10: the eased step (200,200) exceeds the cap,
but the position written that frame is (7,7) (the clamped step 5*sqrt 2 per
axis, rounded), whose magnitude sqrt 98 is not exactly 10. -/
theorem step_clamp_cex :
    (10 : ℝ) <
      Real.sqrt ((((1000 - 0 : ℤ) : ℝ) * (1 / 5)) ^ 2 + (((1000 - 0 : ℤ) : ℝ) * (1 / 5)) ^ 2) ∧
    updateStep 0 0 1000 1000 (1 / 5) 10 = (7, 7) ∧
    Real.sqrt (((7 : ℤ) : ℝ) ^ 2 + ((7 : ℤ) : ℝ) ^ 2) ≠ 10 := by
  have hsqrt2sq : Real.sqrt 2 ^ 2 = 2 := Real.sq_sqrt (by norm_num)
  have hsqrt2pos : 0 < Real.sqrt 2 := Real.sqrt_pos.mpr (by norm_num)
  have h2l : (1.414213 : ℝ) < Real.sqrt 2 := by nlinarith [hsqrt2sq, hsqrt2pos]
  have h2u : Real.sqrt 2 < 1.414214 := by nlinarith [hsqrt2sq, hsqrt2pos]
  have hsum : ((((1000 - 0 : ℤ) : ℝ) * (1 / 5)) ^ 2 + (((1000 - 0 : ℤ) : ℝ) * (1 / 5)) ^ 2) =
      (200 : ℝ) ^ 2 * 2 := by norm_num
  have hlen : Real.sqrt ((((1000 - 0 : ℤ) : ℝ) * (1 / 5)) ^ 2 +
      (((1000 - 0 : ℤ) : ℝ) * (1 / 5)) ^ 2) = 200 * Real.sqrt 2 := by
    rw [hsum, Real.sqrt_mul (by positivity), Real.sqrt_sq (by norm_num : (0 : ℝ) ≤ 200)]
  have hbig : (10 : ℝ) <
      Real.sqrt ((((1000 - 0 : ℤ) : ℝ) * (1 / 5)) ^ 2 + (((1000 - 0 : ℤ) : ℝ) * (1 / 5)) ^ 2) := by
    rw [hlen]; nlinarith [h2l]
  refine ⟨hbig, ?_, ?_⟩
  · have heased := (easedStep_clamped 0 0 1000 1000 (1 / 5) 10 (by norm_num) hbig).1
    have hcoord : ((1000 - 0 : ℤ) : ℝ) * (1 / 5) * (10 /
        Real.sqrt ((((1000 - 0 : ℤ) : ℝ) * (1 / 5)) ^ 2 + (((1000 - 0 : ℤ) : ℝ) * (1 / 5)) ^ 2)) =
        5 * Real.sqrt 2 := by
      rw [hlen]
      have h200 : ((1000 - 0 : ℤ) : ℝ) * (1 / 5) = 200 := by norm_num
      rw [h200]
      field_simp
      nlinarith [hsqrt2sq]
    have hstep : easedStep 0 0 1000 1000 (1 / 5) 10 = (5 * Real.sqrt 2, 5 * Real.sqrt 2) := by
      rw [heased, hcoord]
    unfold updateStep
    rw [hstep]
    have hround : roundHalf (((0 : ℤ) : ℝ) + 5 * Real.sqrt 2) = 7 := by
      unfold roundHalf
      rw [Int.floor_eq_iff]
      constructor
      · push_cast; nlinarith [h2l]
      · push_cast; nlinarith [h2u]
    rw [hround]
  · intro habs
    have h98 : ((7 : ℤ) : ℝ) ^ 2 + ((7 : ℤ) : ℝ) ^ 2 = 98 := by norm_num
    rw [h98] at habs
    have : (98 : ℝ) = 100 := by
      have := Real.sq_sqrt (by norm_num : (0 : ℝ) ≤ 98)
      rw [habs] at this
      linarith [this]
    norm_num at this

/-- If the member loop of _hitTest returns a piece, the bounding-box guard
did not reject that piece against the offset of the cluster being scanned. -/
theorem hitTestMembers_some_inside (inPath : Piece → ℚ → ℚ → Bool) (x y : ℚ) (g : Cluster) :
    ∀ ps : List Piece, ∀ p : Piece, hitTestMembers inPath x y g ps = some p →
      ¬ (x < ((p.tx + g.px : ℤ) : ℚ) ∨ y < ((p.ty + g.py : ℤ) : ℚ) ∨
         x > ((p.tx + g.px : ℤ) : ℚ) + (p.sw : ℚ) ∨ y > ((p.ty + g.py : ℤ) : ℚ) + (p.sh : ℚ)) := by
  intro ps
  induction ps with
  | nil => intro p hp; simp [hitTestMembers] at hp
  | cons q rest ih =>
    intro p hp
    unfold hitTestMembers at hp
    by_cases hguard : x < ((q.tx + g.px : ℤ) : ℚ) ∨ y < ((q.ty + g.py : ℤ) : ℚ) ∨
        x > ((q.tx + g.px : ℤ) : ℚ) + (q.sw : ℚ) ∨ y > ((q.ty + g.py : ℤ) : ℚ) + (q.sh : ℚ)
    · rw [if_pos hguard] at hp
      exact ih p hp
    · rw [if_neg hguard] at hp
      by_cases hin : inPath q (x - ((q.tx + g.px : ℤ) : ℚ)) (y - ((q.ty + g.py : ℤ) : ℚ)) = true
    
      · rw [if_pos hin] at hp
        cases hp
        exact hguard
      · rw [if_neg hin] at hp
        exact ih p hp

/-- If the cluster loop of _hitTest returns a piece, some scanned cluster
offset places the point inside the bounding box of that piece. -/
theorem hitTestClusters_some_inside (s : PState) (inPath : Piece → ℚ → ℚ → Bool) (x y : ℚ) :
    ∀ gs : List Cluster, ∀ p : Piece, hitTestClusters s inPath x y gs = some p →
      ∃ g ∈ gs, ¬ (x < ((p.tx + g.px : ℤ) : ℚ) ∨ y < ((p.ty + g.py : ℤ) : ℚ) ∨
        x > ((p.tx + g.px : ℤ) : ℚ) + (p.sw : ℚ) ∨ y > ((p.ty + g.py : ℤ) : ℚ) + (p.sh : ℚ)) := by
  intro gs
  induction gs with
  | nil => intro p hp; simp [hitTestClusters] at hp
  | cons g rest ih =>
    intro p hp
    unfold hitTestClusters at hp
    cases hmem : hitTestMembers inPath x y g ((g.members.filterMap (pieceById s)).reverse) with
    | some q =>
      rw [hmem] at hp
      cases hp
      exact ⟨g, List.mem_cons_self g rest, hitTestMembers_some_inside inPath x y g _ _ hmem⟩
    | none =>
      rw [hmem] at hp
      obtain ⟨g', hg', hout⟩ := ih p hp
      exact ⟨g', List.mem_cons_of_mem g hg', hout⟩

/-- A successful cluster lookup returns a registered cluster with that id. -/
theorem findCluster_some {s : PState} {gid : ℕ} {g : Cluster}
    (h : findCluster s gid = some g) : g ∈ s.groups ∧ g.id = gid := by
  refine ⟨List.mem_of_find?_eq_some h, ?_⟩
  have := List.find?_some h
  simpa using this

/-- With pairwise distinct ids, find? by id over the registry list returns
exactly the registered cluster bearing that id. -/
theorem find_by_id_of_nodup :
    ∀ l : List Cluster, (l.map (fun g => g.id)).Nodup →
      ∀ g ∈ l, l.find? (fun h => h.id == g.id) = some g := by
  intro l
  induction l with
  | nil => intro _ g hg; cases hg
  | cons a t ih =>
    intro hnod g hg
    rw [List.map_cons, List.nodup_cons] at hnod
    rcases List.mem_cons.mp hg with rfl | hgt
    · exact List.find?_cons_of_pos t (by simp)
    · have hne : a.id ≠ g.id := fun he => hnod.1 (he ▸ List.mem_map_of_mem _ hgt)
      rw [List.find?_cons_of_neg t (by simpa using hne)]
      exact ih hnod.2 g hgt

/-- findCluster at the id of a registered cluster (ids distinct). -/
theorem findCluster_of_mem {s : PState} (hnod : (clusterIds s).Nodup)
    {g : Cluster} (hg : g ∈ s.groups) : findCluster s g.id = some g :=
  find_by_id_of_nodup s.groups hnod g hg

/-- Extraction of one cluster from a registry with distinct ids: the registry
is a permutation of that cluster consed onto the rest, the id-filter of the
source delete operation computes exactly the rest, and the rest carries
neither the extracted id nor a duplicate. -/
theorem extract_one :
    ∀ l : List Cluster, (l.map (fun h => h.id)).Nodup →
      ∀ g ∈ l, ∃ t : List Cluster,
        l.Perm (g :: t) ∧
        l.filter (fun h => decide (h.id ≠ g.id)) = t ∧
        (t.map (fun h => h.id)).Nodup ∧
        (∀ h ∈ t, h.id ≠ g.id) := by
  intro l
  induction l with
  | nil => intro _ g hg; cases hg
  | cons a t' ih =>
    intro hnod g hg
    rw [List.map_cons, List.nodup_cons] at hnod
    rcases List.mem_cons.mp hg with rfl | hgt
    · refine ⟨t', List.Perm.refl _, ?_, hnod.2, ?_⟩
      · rw [List.filter_cons_of_neg (by simp)]
        apply List.filter_eq_self.mpr
        intro h hh
        simp only [decide_eq_true_eq]
        exact fun he => hnod.1 (he ▸ List.mem_map_of_mem _ hh)
      · intro h hh
        exact fun he => hnod.1 (he ▸ List.mem_map_of_mem _ hh)
    · obtain ⟨t'', hperm, hfil, hnod'', hids⟩ := ih hnod.2 g hgt
      have hane : a.id ≠ g.id := fun he => hnod.1 (he ▸ List.mem_map_of_mem _ hgt)
      refine ⟨a :: t'', ?_, ?_, ?_, ?_⟩
      · exact (hperm.cons a).trans (List.Perm.swap g a t'')
      · rw [List.filter_cons_of_pos (by simpa using hane), hfil]
      · rw [List.map_cons, List.nodup_cons]
        refine ⟨?_, hnod''⟩
        intro hmem
        apply hnod.1
        refine (List.Perm.map (fun h => h.id) hperm).mem_iff.mpr ?_
        rw [List.map_cons]
        exact List.mem_cons_of_mem _ hmem
      · intro h hh
        rcases List.mem_cons.mp hh with rfl | hh'
        · exact hane
        · exact hids h hh'

/-- The surviving and the absorbed cluster are the two looked-up clusters,
in one order or the other. -/
theorem merge_pair (gA gB : Cluster) :
    (mergeBase gA gB = gB ∧ mergeAdd gA gB = gA) ∨
    (mergeBase gA gB = gA ∧ mergeAdd gA gB = gB) := by
  unfold mergeBase mergeAdd
  by_cases h : gB.members.length ≥ gA.members.length
  · left; rw [if_pos h, if_pos h]; exact ⟨rfl, rfl⟩
  · right; rw [if_neg h, if_neg h]; exact ⟨rfl, rfl⟩

/-- The absorbed member set is never larger than the surviving one. -/
theorem mergeAdd_le_mergeBase (gA gB : Cluster) :
    (mergeAdd gA gB).members.length ≤ (mergeBase gA gB).members.length := by
  unfold mergeBase mergeAdd
  by_cases h : gB.members.length ≥ gA.members.length
  · rw [if_pos h, if_pos h]; exact h
  · rw [if_neg h, if_neg h]; omega

/-- Characterisation of _mergeGroups when both ids are registered and ids are
pairwise distinct: the registry splits as add, base and a rest t; the merge
replaces base by base with the combined member set, drops add, leaves t; the
index repoints the absorbed members to the surviving id; nothing else in the
state changes. -/
theorem mergeGroups_spec (s : PState) (aId bId : ℕ) (gA gB : Cluster)
    (hA : findCluster s aId = some gA) (hB : findCluster s bId = some gB)
    (hne : aId ≠ bId) (hnod : (clusterIds s).Nodup) :
    ∃ t : List Cluster,
      s.groups.Perm (mergeAdd gA gB :: mergeBase gA gB :: t) ∧
      (mergeGroups s aId bId).groups.Perm
        ({ mergeBase gA gB with members := mergedMembers gA gB } :: t) ∧
      (∀ h ∈ t, h.id ≠ (mergeAdd gA gB).id ∧ h.id ≠ (mergeBase gA gB).id) ∧
      (t.map (fun h => h.id)).Nodup ∧
      (mergeAdd gA gB).id ≠ (mergeBase gA gB).id ∧
      (mergeGroups s aId bId).pieceToGroup = (fun pid =>
        if pid ∈ (mergeAdd gA gB).members then some (mergeBase gA gB).id
        else s.pieceToGroup pid) ∧
      (mergeGroups s aId bId).pieces = s.pieces ∧
      (mergeGroups s aId bId).board = s.board := by
  obtain ⟨hgAmem, hgAid⟩ := findCluster_some hA
  obtain ⟨hgBmem, hgBid⟩ := findCluster_some hB
  have hABid : gA.id ≠ gB.id := by rw [hgAid, hgBid]; exact hne
  have haddmem : mergeAdd gA gB ∈ s.groups := by
    rcases merge_pair gA gB with ⟨_, h2⟩ | ⟨_, h2⟩ <;> rw [h2] <;> assumption
  have hbasemem : mergeBase gA gB ∈ s.groups := by
    rcases merge_pair gA gB with ⟨h1, _⟩ | ⟨h1, _⟩ <;> rw [h1] <;> assumption
  have hbaid : (mergeAdd gA gB).id ≠ (mergeBase gA gB).id := by
    rcases merge_pair gA gB with ⟨h1, h2⟩ | ⟨h1, h2⟩ <;> rw [h1, h2]
    · exact hABid
    · exact hABid.symm
  obtain ⟨tA, hpermA, hfilA, hnodA, hidsA⟩ :=
    extract_one s.groups hnod (mergeAdd gA gB) haddmem
  have hbase_tA : mergeBase gA gB ∈ tA := by
    rcases List.mem_cons.mp (hpermA.mem_iff.mp hbasemem) with heq | h
    · exact absurd (congrArg Cluster.id heq).symm hbaid
    · exact h
  obtain ⟨t, hpermB, _, hnodB, hidsB⟩ := extract_one tA hnodA (mergeBase gA gB) hbase_tA
  have hmerge : mergeGroups s aId bId =
      { s with
        groups := (s.groups.filter (fun g => decide (g.id ≠ (mergeAdd gA gB).id))).map
          (fun g => if g.id = (mergeBase gA gB).id then { g with members := mergedMembers gA gB }
            else g),
        pieceToGroup := fun pid =>
          if pid ∈ (mergeAdd gA gB).members then some (mergeBase gA gB).id
          else s.pieceToGroup pid } := by
    unfold mergeGroups
    rw [hA, hB]
  have hids_t : ∀ h ∈ t, h.id ≠ (mergeAdd gA gB).id ∧ h.id ≠ (mergeBase gA gB).id := by
    intro h hh
    have hhtA : h ∈ tA := (hpermB.mem_iff).mpr (List.mem_cons_of_mem _ hh)
    exact ⟨hidsA h hhtA, hidsB h hh⟩
  refine ⟨t, ?_, ?_, hids_t, hnodB, hbaid, ?_, ?_, ?_⟩
  · exact hpermA.trans (hpermB.cons _)
  · have hmap := hpermB.map (fun g => if g.id = (mergeBase gA gB).id
        then { g with members := mergedMembers gA gB } else g)
    have hmapeq : (mergeBase gA gB :: t).map (fun g => if g.id = (mergeBase gA gB).id
        then { g with members := mergedMembers gA gB } else g) =
        { mergeBase gA gB with members := mergedMembers gA gB } :: t := by
      rw [List.map_cons, if_pos rfl]
      congr 1
      have hcongr : t.map (fun g => if g.id = (mergeBase gA gB).id
          then { g with members := mergedMembers gA gB } else g) = t.map (fun g => g) := by
        apply List.map_congr_left
        intro h hh
        rw [if_neg (hidsB h hh)]
      rw [hcongr]
      simp
    rw [hmerge, hfilA]
    rw [hmapeq] at hmap
    exact hmap
  · rw [hmerge]
  · rw [hmerge]
  · rw [hmerge]

/-- C5: merging two distinct registered clusters folds the member set of the
smaller cluster into the larger one (and on a size tie the second argument
gB survives), updates the piece index for every migrated piece, discards the
absorbed identity, decreases the cluster count by exactly 1, and conserves
the multiset of members (hence the total member count). -/
theorem merge_prefer_larger (s : PState) (aId bId : ℕ) (gA gB : Cluster)
    (hA : findCluster s aId = some gA) (hB : findCluster s bId = some gB)
    (hne : aId ≠ bId) (hwf : WF s) :
    (mergeAdd gA gB).members.length ≤ (mergeBase gA gB).members.length ∧
    (gB.members.length ≥ gA.members.length → mergeBase gA gB = gB ∧ mergeAdd gA gB = gA) ∧
    (∃ g' ∈ (mergeGroups s aId bId).groups, g'.id = (mergeBase gA gB).id ∧
      g'.members = (mergeBase gA gB).members ++ (mergeAdd gA gB).members ∧
      g'.px = (mergeBase gA gB).px ∧ g'.py = (mergeBase gA gB).py) ∧
    (∀ g' ∈ (mergeGroups s aId bId).groups, g'.id ≠ (mergeAdd gA gB).id) ∧
    (∀ pid ∈ (mergeAdd gA gB).members,
      (mergeGroups s aId bId).pieceToGroup pid = some (mergeBase gA gB).id) ∧
    (mergeGroups s aId bId).groups.length + 1 = s.groups.length ∧
    (allMembers (mergeGroups s aId bId)).Perm (allMembers s) := by
  obtain ⟨t, hp1, hp2, hids, hnodt, hbaid, hmap, hpieces, hboard⟩ :=
    mergeGroups_spec s aId bId gA gB hA hB hne hwf.2.1
  have hall : (allMembers s).Perm ((mergeAdd gA gB).members ++
      ((mergeBase gA gB).members ++ t.flatMap (fun g => g.members))) := by
    have := hp1.flatMap_right (fun g => g.members)
    simpa [allMembers, List.flatMap_cons] using this
  have hnodall : (allMembers s).Nodup := (hwf.2.2.1.nodup_iff).mpr hwf.1
  have hnodsplit := (hall.nodup_iff).mp hnodall
  rw [List.nodup_append] at hnodsplit
  have hdisj : ∀ pid ∈ (mergeAdd gA gB).members, pid ∉ (mergeBase gA gB).members := by
    intro pid hpid hbase
    exact hnodsplit.2.2 hpid (List.mem_append_left _ hbase)
  have hmm : mergedMembers gA gB =
      (mergeBase gA gB).members ++ (mergeAdd gA gB).members := by
    unfold mergedMembers
    congr 1
    apply List.filter_eq_self.mpr
    intro pid hpid
    simp only [decide_eq_true_eq]
    exact hdisj pid hpid
  refine ⟨mergeAdd_le_mergeBase gA gB, ?_, ?_, ?_, ?_, ?_, ?_⟩
  · intro h
    unfold mergeBase mergeAdd
    rw [if_pos h, if_pos h]
    exact ⟨rfl, rfl⟩
  · refine ⟨{ mergeBase gA gB with members := mergedMembers gA gB },
      hp2.mem_iff.mpr (List.mem_cons_self _ _), rfl, ?_, rfl, rfl⟩
    exact hmm
  · intro g' hg'
    rcases List.mem_cons.mp (hp2.mem_iff.mp hg') with rfl | hgt
    · exact hbaid.symm
    · exact (hids g' hgt).1
  · intro pid hpid
    rw [hmap]
    exact if_pos hpid
  · have h1 := hp1.length_eq
    have h2 := hp2.length_eq
    simp only [List.length_cons] at h1 h2
    omega
  · have hflat := hp2.flatMap_right (fun g => g.members)
    have hstep : (allMembers (mergeGroups s aId bId)).Perm
        (mergedMembers gA gB ++ t.flatMap (fun g => g.members)) := by
      simpa [allMembers, List.flatMap_cons] using hflat
    have hcomm : (mergedMembers gA gB ++ t.flatMap (fun g => g.members)).Perm
        ((mergeAdd gA gB).members ++
          ((mergeBase gA gB).members ++ t.flatMap (fun g => g.members))) := by
      rw [hmm, List.append_assoc]
      have h1 : ((mergeBase gA gB).members ++ ((mergeAdd gA gB).members ++
          t.flatMap (fun g => g.members))).Perm
          (((mergeAdd gA gB).members ++ t.flatMap (fun g => g.members)) ++
            (mergeBase gA gB).members) := List.perm_append_comm
      have h2 : (((mergeAdd gA gB).members ++ t.flatMap (fun g => g.members)) ++
          (mergeBase gA gB).members).Perm
          ((mergeAdd gA gB).members ++ (t.flatMap (fun g => g.members) ++
            (mergeBase gA gB).members)) := by
        rw [List.append_assoc]
      have h3 : (t.flatMap (fun g => g.members) ++ (mergeBase gA gB).members).Perm
          ((mergeBase gA gB).members ++ t.flatMap (fun g => g.members)) :=
        List.perm_append_comm
      exact (h1.trans h2).trans (h3.append_left _)
    exact hstep.trans (hcomm.trans hall.symm)

/-- The freshly initialised 1 by 2 board satisfies the full invariant. -/
theorem WF_board12 : WF (initState ⟨1, 2, 50, 50, 0, 0⟩ 14 true (fun n => n)) := by
  refine ⟨by decide, by decide, by decide, ?_⟩
  unfold IndexOk
  decide

/-- C5 witness: on the fresh 1 by 2 board, merging the two singleton clusters
0 and 1 leaves one cluster: the count drops from 2 to 1, and the second
argument (cluster 1) survives the size tie with members [1, 0]. -/
theorem merge_prefer_larger_witness :
    ((0 : ℕ) ≠ 1) ∧
    (mergeGroups (initState ⟨1, 2, 50, 50, 0, 0⟩ 14 true (fun n => n)) 0 1).groups.length + 1 =
      (initState ⟨1, 2, 50, 50, 0, 0⟩ 14 true (fun n => n)).groups.length ∧
    (∀ pid ∈ (mergeAdd ⟨0, [0], 0, 0⟩ ⟨1, [1], 0, 0⟩).members,
      (mergeGroups (initState ⟨1, 2, 50, 50, 0, 0⟩ 14 true (fun n => n)) 0 1).pieceToGroup pid =
        some (mergeBase ⟨0, [0], 0, 0⟩ ⟨1, [1], 0, 0⟩).id) := by
  refine ⟨by decide, ?_, ?_⟩
  · exact (merge_prefer_larger (initState ⟨1, 2, 50, 50, 0, 0⟩ 14 true (fun n => n)) 0 1
      ⟨0, [0], 0, 0⟩ ⟨1, [1], 0, 0⟩ (by decide) (by decide) (by decide)
      WF_board12).2.2.2.2.2.1
  · exact (merge_prefer_larger (initState ⟨1, 2, 50, 50, 0, 0⟩ 14 true (fun n => n)) 0 1
      ⟨0, [0], 0, 0⟩ ⟨1, [1], 0, 0⟩ (by decide) (by decide) (by decide)
      WF_board12).2.2.2.2.1

/-- The row-major piece ids are 0..rows*cols-1 in order. -/
theorem createPieces_ids (b : Board) :
    (createPieces b).map (fun p => p.id) = List.range (b.rows * b.cols) := by
  suffices h : ∀ n : ℕ,
      (((List.range n).flatMap (fun r => (List.range b.cols).map (fun c => mkPiece b r c))).map
        (fun p => p.id)) = List.range (n * b.cols) by
    exact h b.rows
  intro n
  induction n with
  | zero => simp
  | succ n ih =>
    rw [List.range_succ, List.flatMap_append, List.map_append, ih]
    rw [show (n + 1) * b.cols = n * b.cols + b.cols by ring, List.range_add]
    congr 1
    simp only [List.flatMap_cons, List.flatMap_nil, List.append_nil, List.map_map]
    apply List.map_congr_left
    intro c _
    rfl

/-- The invariant only concerns the multiset of clusters: it transfers along
any permutation of the registry list. -/
theorem WF_groups_perm {s : PState} {l : List Cluster} (hperm : s.groups.Perm l)
    (h : WF s) : WF { s with groups := l } := by
  obtain ⟨h1, h2, h3, h4⟩ := h
  have h2' : (s.groups.map (fun g => g.id)).Nodup := h2
  have h3' : (s.groups.flatMap (fun g => g.members)).Perm (s.pieces.map (fun p => p.id)) := h3
  refine ⟨h1, ?_, ?_, ?_⟩
  · show (l.map (fun g => g.id)).Nodup
    exact ((hperm.map (fun g => g.id)).nodup_iff).mp h2'
  · show (l.flatMap (fun g => g.members)).Perm (s.pieces.map (fun p => p.id))
    exact ((hperm.flatMap_right (fun g => g.members)).symm).trans h3'
  · intro pid hpid
    obtain ⟨g, hg, hmap, hmem⟩ := h4 pid hpid
    exact ⟨g, hperm.mem_iff.mp hg, hmap, hmem⟩

/-- The invariant transfers along any per-cluster update that preserves id
and member set (offset writes). -/
theorem WF_groups_map {s : PState} {u : Cluster → Cluster}
    (hid : ∀ g, (u g).id = g.id) (hmem : ∀ g, (u g).members = g.members)
    (h : WF s) : WF { s with groups := s.groups.map u } := by
  obtain ⟨h1, h2, h3, h4⟩ := h
  have h2' : (s.groups.map (fun g => g.id)).Nodup := h2
  have h3' : (s.groups.flatMap (fun g => g.members)).Perm (s.pieces.map (fun p => p.id)) := h3
  refine ⟨h1, ?_, ?_, ?_⟩
  · show ((s.groups.map u).map (fun g => g.id)).Nodup
    rw [List.map_map]
    have he : ((fun g : Cluster => g.id) ∘ u) = (fun g : Cluster => g.id) :=
      funext fun g => hid g
    rw [he]
    exact h2'
  · show ((s.groups.map u).flatMap (fun g => g.members)).Perm (s.pieces.map (fun p => p.id))
    have he : (s.groups.map u).flatMap (fun g => g.members) =
        s.groups.flatMap (fun g => g.members) := by
      rw [List.flatMap_map]
      exact List.flatMap_congr (fun g _ => hmem g)
    rw [he]
    exact h3'
  · intro pid hpid
    obtain ⟨g, hg, hmap, hmemg⟩ := h4 pid hpid
    refine ⟨u g, List.mem_map_of_mem u hg, ?_, ?_⟩
    · rw [hid g]; exact hmap
    · rw [hmem g]; exact hmemg

/-- A fresh board satisfies the invariant for any injective id supply. -/
theorem WF_initState (b : Board) (sd : ℤ) (lock : Bool) (f : ℕ → ℕ)
    (hf : Function.Injective f) : WF (initState b sd lock f) := by
  have hids := createPieces_ids b
  refine ⟨?_, ?_, ?_, ?_⟩
  · show ((createPieces b).map (fun p => p.id)).Nodup
    rw [hids]
    exact List.nodup_range _
  · show (((createPieces b).map
      (fun p => ({ id := f p.id, members := [p.id], px := 0, py := 0 } : Cluster))).map
        (fun g => g.id)).Nodup
    rw [List.map_map]
    have : ((fun g : Cluster => g.id) ∘ fun p : Piece =>
        ({ id := f p.id, members := [p.id], px := 0, py := 0 } : Cluster)) =
        (f ∘ fun p : Piece => p.id) := rfl
    rw [this, ← List.map_map, hids]
    exact List.Nodup.map hf (List.nodup_range _)
  · show (((createPieces b).map
      (fun p => ({ id := f p.id, members := [p.id], px := 0, py := 0 } : Cluster))).flatMap
        (fun g => g.members)).Perm ((createPieces b).map (fun p => p.id))
    rw [List.flatMap_map]
    show ((createPieces b).flatMap (fun p => [p.id])).Perm
      ((createPieces b).map (fun p => p.id))
    have he : ∀ l : List Piece, (l.flatMap (fun p => [p.id])) = l.map (fun p => p.id) := by
      intro l
      induction l with
      | nil => rfl
      | cons p t iht => rw [List.flatMap_cons, iht]; rfl
    rw [he]
  · intro pid hpid
    obtain ⟨p, hp, hpid'⟩ := List.mem_map.mp hpid
    refine ⟨{ id := f pid, members := [pid], px := 0, py := 0 }, ?_, ?_, List.mem_singleton.mpr rfl⟩
    · rw [← hpid']
      exact List.mem_map_of_mem
        (fun p : Piece => ({ id := f p.id, members := [p.id], px := 0, py := 0 } : Cluster)) hp
    · show (if (createPieces b).any (fun q => q.id == pid) then some (f pid) else none) =
        some (f pid)
      rw [if_pos]
      apply List.any_eq_true.mpr
      exact ⟨p, hp, by simp [hpid']⟩

/-- Merging two distinct live clusters preserves the invariant. -/
theorem WF_mergeGroups {s : PState} {aId bId : ℕ}
    (ha : aId ∈ clusterIds s) (hb : bId ∈ clusterIds s) (hne : aId ≠ bId)
    (h : WF s) : WF (mergeGroups s aId bId) := by
  obtain ⟨gA, hgAmem, hgAid⟩ := List.mem_map.mp ha
  obtain ⟨gB, hgBmem, hgBid⟩ := List.mem_map.mp hb
  have hA : findCluster s aId = some gA := by
    rw [← hgAid]; exact findCluster_of_mem h.2.1 hgAmem
  have hB : findCluster s bId = some gB := by
    rw [← hgBid]; exact findCluster_of_mem h.2.1 hgBmem
  obtain ⟨t, hp1, hp2, hids, hnodt, hbaid, hmap, hpieces, hboard⟩ :=
    mergeGroups_spec s aId bId gA gB hA hB hne h.2.1
  have hall : (allMembers s).Perm ((mergeAdd gA gB).members ++
      ((mergeBase gA gB).members ++ t.flatMap (fun g => g.members))) := by
    have := hp1.flatMap_right (fun g => g.members)
    simpa [allMembers, List.flatMap_cons] using this
  have hnodall : (allMembers s).Nodup := (h.2.2.1.nodup_iff).mpr h.1
  have hnodsplit := (hall.nodup_iff).mp hnodall
  rw [List.nodup_append] at hnodsplit
  have hdisj : ∀ pid ∈ (mergeAdd gA gB).members, pid ∉ (mergeBase gA gB).members := by
    intro pid hpid hbase
    exact hnodsplit.2.2 hpid (List.mem_append_left _ hbase)
  have hmm : mergedMembers gA gB =
      (mergeBase gA gB).members ++ (mergeAdd gA gB).members := by
    unfold mergedMembers
    congr 1
    apply List.filter_eq_self.mpr
    intro pid hpid
    simp only [decide_eq_true_eq]
    exact hdisj pid hpid
  have hpieceIds : pieceIds (mergeGroups s aId bId) = pieceIds s := by
    unfold pieceIds
    rw [hpieces]
  refine ⟨?_, ?_, ?_, ?_⟩
  · rw [hpieceIds]; exact h.1
  · have : (clusterIds (mergeGroups s aId bId)).Perm
        ((mergeBase gA gB).id :: t.map (fun g => g.id)) := by
      have := hp2.map (fun g => g.id)
      simpa [clusterIds] using this
    refine (this.nodup_iff).mpr ?_
    rw [List.nodup_cons]
    refine ⟨?_, hnodt⟩
    intro hmem
    obtain ⟨g, hg, hgid⟩ := List.mem_map.mp hmem
    exact (hids g hg).2 hgid
  · rw [hpieceIds]
    have hflat := hp2.flatMap_right (fun g => g.members)
    have hstep : (allMembers (mergeGroups s aId bId)).Perm
        (mergedMembers gA gB ++ t.flatMap (fun g => g.members)) := by
      simpa [allMembers, List.flatMap_cons] using hflat
    have hcomm : (mergedMembers gA gB ++ t.flatMap (fun g => g.members)).Perm
        ((mergeAdd gA gB).members ++
          ((mergeBase gA gB).members ++ t.flatMap (fun g => g.members))) := by
      rw [hmm, List.append_assoc]
      have h1 : ((mergeBase gA gB).members ++ ((mergeAdd gA gB).members ++
          t.flatMap (fun g => g.members))).Perm
          (((mergeAdd gA gB).members ++ t.flatMap (fun g => g.members)) ++
            (mergeBase gA gB).members) := List.perm_append_comm
      have h2 : (((mergeAdd gA gB).members ++ t.flatMap (fun g => g.members)) ++
          (mergeBase gA gB).members).Perm
          ((mergeAdd gA gB).members ++ (t.flatMap (fun g => g.members) ++
            (mergeBase gA gB).members)) := by
        rw [List.append_assoc]
      have h3 : (t.flatMap (fun g => g.members) ++ (mergeBase gA gB).members).Perm
          ((mergeBase gA gB).members ++ t.flatMap (fun g => g.members)) :=
        List.perm_append_comm
      exact (h1.trans h2).trans (h3.append_left _)
    exact (hstep.trans (hcomm.trans hall.symm)).trans h.2.2.1
  · intro pid hpid
    rw [hpieceIds] at hpid
    have happ : (mergeGroups s aId bId).pieceToGroup pid =
        if pid ∈ (mergeAdd gA gB).members then some (mergeBase gA gB).id
        else s.pieceToGroup pid := by rw [hmap]
    by_cases hin : pid ∈ (mergeAdd gA gB).members
    · refine ⟨{ mergeBase gA gB with members := mergedMembers gA gB },
        hp2.mem_iff.mpr (List.mem_cons_self _ _), ?_, ?_⟩
      · rw [happ, if_pos hin]
      · rw [hmm]
        exact List.mem_append_right _ hin
    · obtain ⟨g, hg, hmapg, hmemg⟩ := h.2.2.2 pid hpid
      rcases List.mem_cons.mp (hp1.mem_iff.mp hg) with rfl | hrest
      · exact absurd hmemg hin
      · rcases List.mem_cons.mp hrest with rfl | ht
        · refine ⟨{ mergeBase gA gB with members := mergedMembers gA gB },
            hp2.mem_iff.mpr (List.mem_cons_self _ _), ?_, ?_⟩
          · rw [happ, if_neg hin]
            exact hmapg
          · rw [hmm]
            exact List.mem_append_left _ hmemg
        · refine ⟨g, hp2.mem_iff.mpr (List.mem_cons_of_mem _ ht), ?_, hmemg⟩
          rw [happ, if_neg hin]
          exact hmapg

/-- Every reachable state satisfies the full invariant. -/
theorem reachable_WF {b : Board} {sd : ℤ} {lock : Bool} {s : PState}
    (h : Reachable b sd lock s) : WF s := by
  induction h with
  | init f hf => exact WF_initState b sd lock f hf
  | merge aId bId h ha hb hne ih => exact WF_mergeGroups ha hb hne ih
  | setPos gid px py h ih =>
    exact WF_groups_map (fun g => by by_cases hg : g.id = gid <;> simp [hg])
      (fun g => by by_cases hg : g.id = gid <;> simp [hg]) ih
  | @front s' gid h ih =>
    unfold bringToFront
    cases hfind : findCluster s' gid with
    | none => exact ih
    | some g =>
      obtain ⟨hgmem, hgid⟩ := findCluster_some hfind
      obtain ⟨t, hperm, hfil, _, _⟩ := extract_one _ ih.2.1 g hgmem
      rw [hgid] at hfil
      rw [hfil]
      refine WF_groups_perm ?_ ih
      exact hperm.trans (List.perm_append_singleton g t).symm
  | zero h ih =>
    exact WF_groups_map (fun g => rfl) (fun g => rfl) ih

/-- C4: in every state reachable from cluster creation through any sequence
of merges (and offset writes, bring-to-front reorderings and resets), the
member sets of the clusters cover exactly the set of piece ids, no piece id
lies in two clusters, and the piece-to-cluster index maps every piece id to
a live cluster whose member set contains it. -/
theorem partition_invariant (b : Board) (sd : ℤ) (lock : Bool) (s : PState)
    (h : Reachable b sd lock s) : PartitionInv s := by
  have hwf := reachable_WF h
  refine ⟨hwf.2.2.1, ?_, hwf.2.2.2⟩
  have hnodall : (allMembers s).Nodup := (hwf.2.2.1.nodup_iff).mpr hwf.1
  have hsplit := List.nodup_flatMap.mp hnodall
  refine hsplit.2.imp ?_
  intro g g' hd pid hpid hmem
  exact hd hpid hmem

/-- C4 witness: the freshly created 1 by 2 board is a reachable state and
satisfies the partition invariant. -/
theorem partition_invariant_witness :
    PartitionInv (initState ⟨1, 2, 50, 50, 0, 0⟩ 14 true (fun n => n)) :=
  partition_invariant ⟨1, 2, 50, 50, 0, 0⟩ 14 true _
    (Reachable.init (fun n => n) (fun a b h => h))

/-- One unfolding of the neighbour loop on a cons cell. -/
theorem tryNeighbors_cons (s : PState) (gid : ℕ) (p q : Piece) (rest : List Piece) :
    tryNeighbors s gid p (q :: rest) =
      match s.pieceToGroup q.id with
      | none => tryNeighbors s gid p rest
      | some gidQ =>
        if gidQ = gid then tryNeighbors s gid p rest
        else
          match findCluster s gidQ, findCluster s gid with
          | some gQ, some gM =>
            if snapOk (q.tx + gQ.px - p.tx - gM.px) (q.ty + gQ.py - p.ty - gM.py)
                s.snapDistance = true then
              (mergeGroups (setClusterPos s gid (q.tx + gQ.px - p.tx) (q.ty + gQ.py - p.ty))
                gid gidQ, true)
            else tryNeighbors s gid p rest
          | _, _ => tryNeighbors s gid p rest := rfl

/-- A neighbour whose id has no index entry is skipped. -/
theorem tryNeighbors_cons_skip_none (s : PState) (gid : ℕ) (p q : Piece) (rest : List Piece)
    (hmap : s.pieceToGroup q.id = none) :
    tryNeighbors s gid p (q :: rest) = tryNeighbors s gid p rest := by
  rw [tryNeighbors_cons]
  simp [hmap]

/-- A neighbour already in the moved cluster is skipped. -/
theorem tryNeighbors_cons_skip_same (s : PState) (gid : ℕ) (p q : Piece) (rest : List Piece)
    (hmap : s.pieceToGroup q.id = some gid) :
    tryNeighbors s gid p (q :: rest) = tryNeighbors s gid p rest := by
  rw [tryNeighbors_cons]
  simp [hmap]

/-- A neighbour whose cluster is farther than snapDistance is skipped. -/
theorem tryNeighbors_cons_skip_far (s : PState) (gid : ℕ) (p q : Piece) (rest : List Piece)
    (gidQ : ℕ) (gQ gM : Cluster)
    (hmap : s.pieceToGroup q.id = some gidQ) (hne : gidQ ≠ gid)
    (hQ : findCluster s gidQ = some gQ) (hM : findCluster s gid = some gM)
    (hsnap : snapOk (q.tx + gQ.px - p.tx - gM.px) (q.ty + gQ.py - p.ty - gM.py)
      s.snapDistance = false) :
    tryNeighbors s gid p (q :: rest) = tryNeighbors s gid p rest := by
  rw [tryNeighbors_cons]
  simp [hmap, hne, hQ, hM, hsnap]

/-- The first neighbour within snapDistance snaps the moved cluster to the
ideal offset and merges. -/
theorem tryNeighbors_cons_hit (s : PState) (gid : ℕ) (p q : Piece) (rest : List Piece)
    (gidQ : ℕ) (gQ gM : Cluster)
    (hmap : s.pieceToGroup q.id = some gidQ) (hne : gidQ ≠ gid)
    (hQ : findCluster s gidQ = some gQ) (hM : findCluster s gid = some gM)
    (hsnap : snapOk (q.tx + gQ.px - p.tx - gM.px) (q.ty + gQ.py - p.ty - gM.py)
      s.snapDistance = true) :
    tryNeighbors s gid p (q :: rest) =
      (mergeGroups (setClusterPos s gid (q.tx + gQ.px - p.tx) (q.ty + gQ.py - p.ty)) gid gidQ,
       true) := by
  rw [tryNeighbors_cons]
  simp [hmap, hne, hQ, hM, hsnap]

/-- One unfolding of the member loop with fuel left. -/
theorem snapLoop_succ (gid : ℕ) (s : PState) (mem : List ℕ) (i : ℕ) (merged : Bool) (fuel : ℕ) :
    snapLoop gid s mem i merged (fuel + 1) =
      match mem[i]? with
      | none => s
      | some pid =>
        match pieceById s pid with
        | none => s
        | some p =>
          let res := tryNeighbors s gid p (neighborsOf s p)
          let merged2 := merged || res.2
          if merged2 && s.lockOnSnap then res.1
          else
            snapLoop gid res.1
              (match findCluster res.1 gid with
               | some g => g.members
               | none => mem)
              (i + 1) merged2 fuel := rfl

/-- The member loop stops at the end of the member list. -/
theorem snapLoop_end (gid : ℕ) (s : PState) (mem : List ℕ) (i : ℕ) (merged : Bool) (fuel : ℕ)
    (hmem : mem[i]? = none) :
    snapLoop gid s mem i merged (fuel + 1) = s := by
  rw [snapLoop_succ]
  simp [hmem]

/-- When the member at index i snaps and merges, and either lockOnSnap is set
or the moved cluster was absorbed and no member follows, the loop stops with
the merged state. -/
theorem snapLoop_hit_final (gid : ℕ) (s s' : PState) (mem : List ℕ) (i fuel : ℕ) (pid : ℕ)
    (p : Piece)
    (hmem : mem[i]? = some pid) (hp : pieceById s pid = some p)
    (htn : tryNeighbors s gid p (neighborsOf s p) = (s', true))
    (hdone : s.lockOnSnap = true ∨ (findCluster s' gid = none ∧ mem[i + 1]? = none)) :
    snapLoop gid s mem i false (fuel + 1 + 1) = s' := by
  rw [snapLoop_succ]
  rcases hdone with hlock | ⟨hfind, hnext⟩
  · simp [hmem, hp, htn, hlock]
  · by_cases hlock : s.lockOnSnap = true
    · simp [hmem, hp, htn, hlock]
    · simp only [Bool.not_eq_true] at hlock
      simp [hmem, hp, htn, hlock, hfind]
      exact snapLoop_end gid s' mem (i + 1) true fuel hnext

/-- C3 counterexample: on the 1 by 2 board, drag piece 1 to (-45, 3), within
snapDistance of the ideal offset (-50, 0) = piece 0 target minus piece 1
target, and release.  Exactly one cluster remains and it contains both ids,
but its offset is (0, 0), not (-50, 0): the size tie makes the stationary
cluster of piece 0 survive with its own offset, discarding the snapped one. -/
theorem board12_snap_cex :
    Real.sqrt (((-50 - (-45) : ℤ) : ℝ) ^ 2 + ((0 - 3 : ℤ) : ℝ) ^ 2) ≤ 14 ∧
    (mkPiece ⟨1, 2, 50, 50, 0, 0⟩ 0 0).tx - (mkPiece ⟨1, 2, 50, 50, 0, 0⟩ 0 1).tx = -50 ∧
    (mkPiece ⟨1, 2, 50, 50, 0, 0⟩ 0 0).ty - (mkPiece ⟨1, 2, 50, 50, 0, 0⟩ 0 1).ty = 0 ∧
    (trySnapAndMerge (dragBoard12 (-45) 3) 1).groups =
      [{ id := 0, members := [0, 1], px := 0, py := 0 }] ∧
    (trySnapAndMerge (dragBoard12 (-45) 3) 1).pieceToGroup 1 = some 0 ∧
    ((0 : ℤ) ≠ -50) := by
  refine ⟨?_, by decide, by decide, by decide, by decide, by decide⟩
  have h34 : Real.sqrt (((-50 - (-45) : ℤ) : ℝ) ^ 2 + ((0 - 3 : ℤ) : ℝ) ^ 2) =
      Real.sqrt 34 := by norm_num
  rw [h34]
  have h196 : (34 : ℝ) ≤ 196 := by norm_num
  calc Real.sqrt 34 ≤ Real.sqrt 196 := Real.sqrt_le_sqrt h196
    _ = 14 := by
        rw [show (196 : ℝ) = 14 ^ 2 by norm_num, Real.sqrt_sq (by norm_num : (0 : ℝ) ≤ 14)]

/-- C3 amended: on the 1 by 2 board, dragging piece 1 to any offset within
snapDistance of the ideal offset relative to piece 0 and releasing leaves
exactly one cluster [the one that belonged to piece 0] containing both ids 0
and 1, whose offset is (0, 0): the offset of piece 0's cluster, which
survives the size tie; the snapped offset of piece 1's cluster is discarded
by the merge, so piece 1's cluster offset is not piece 0's target minus
piece 1's target, but the pieces are world-aligned relative to each other. -/
theorem board12_snap_amended (vx vy : ℤ)
    (hsnap : Real.sqrt (((-50 - vx : ℤ) : ℝ) ^ 2 + ((0 - vy : ℤ) : ℝ) ^ 2) ≤ 14) :
    (trySnapAndMerge (dragBoard12 vx vy) 1).groups =
      [{ id := 0, members := [0, 1], px := 0, py := 0 }] ∧
    (trySnapAndMerge (dragBoard12 vx vy) 1).pieceToGroup 0 = some 0 ∧
    (trySnapAndMerge (dragBoard12 vx vy) 1).pieceToGroup 1 = some 0 := by
  have hok : snapOk (-50 - vx) (0 - vy) 14 = true := by
    rw [snapOk_iff]
    exact_mod_cast hsnap
  have e0 : trySnapAndMerge (dragBoard12 vx vy) 1 =
      snapLoop 1 (dragBoard12 vx vy) [1] 0 false 3 := by
    unfold trySnapAndMerge
    rw [show findCluster (dragBoard12 vx vy) 1 = some ⟨1, [1], vx, vy⟩ from rfl]
    rfl
  have htn : tryNeighbors (dragBoard12 vx vy) 1 ⟨1, 0, 1, 50, 0, 50, 50⟩
      (neighborsOf (dragBoard12 vx vy) ⟨1, 0, 1, 50, 0, 50, 50⟩) =
      (mergeGroups (setClusterPos (dragBoard12 vx vy) 1 (-50) 0) 1 0, true) := by
    rw [show neighborsOf (dragBoard12 vx vy) ⟨1, 0, 1, 50, 0, 50, 50⟩ =
      [⟨0, 0, 0, 0, 0, 50, 50⟩] from rfl]
    exact tryNeighbors_cons_hit (dragBoard12 vx vy) 1 ⟨1, 0, 1, 50, 0, 50, 50⟩
      ⟨0, 0, 0, 0, 0, 50, 50⟩ [] 0 ⟨0, [0], 0, 0⟩ ⟨1, [1], vx, vy⟩ rfl (by decide) rfl rfl hok
  have e2 : snapLoop 1 (dragBoard12 vx vy) [1] 0 false 3 =
      mergeGroups (setClusterPos (dragBoard12 vx vy) 1 (-50) 0) 1 0 :=
    snapLoop_hit_final 1 (dragBoard12 vx vy)
      (mergeGroups (setClusterPos (dragBoard12 vx vy) 1 (-50) 0) 1 0) [1] 0 1 1
      ⟨1, 0, 1, 50, 0, 50, 50⟩ rfl rfl htn (Or.inl rfl)
  refine ⟨?_, ?_, ?_⟩ <;> rw [e0, e2] <;> rfl

/-- C3 amended witness: the drag offset (-45, 3) lies within snapDistance of
(-50, 0) and releasing merges everything into the cluster of piece 0. -/
theorem board12_snap_amended_witness :
    Real.sqrt (((-50 - (-45) : ℤ) : ℝ) ^ 2 + ((0 - 3 : ℤ) : ℝ) ^ 2) ≤ 14 ∧
    (trySnapAndMerge (dragBoard12 (-45) 3) 1).groups =
      [{ id := 0, members := [0, 1], px := 0, py := 0 }] := by
  have hsnap : Real.sqrt (((-50 - (-45) : ℤ) : ℝ) ^ 2 + ((0 - 3 : ℤ) : ℝ) ^ 2) ≤ 14 := by
    have h34 : Real.sqrt (((-50 - (-45) : ℤ) : ℝ) ^ 2 + ((0 - 3 : ℤ) : ℝ) ^ 2) =
        Real.sqrt 34 := by norm_num
    rw [h34]
    calc Real.sqrt 34 ≤ Real.sqrt 196 := Real.sqrt_le_sqrt (by norm_num)
      _ = 14 := by
          rw [show (196 : ℝ) = 14 ^ 2 by norm_num, Real.sqrt_sq (by norm_num : (0 : ℝ) ≤ 14)]
  exact ⟨hsnap, (board12_snap_amended (-45) 3 hsnap).1⟩

/-- The right boundary of (r,c) and the left boundary of (r,c+1), translated
by one common cluster offset, coincide point for point: both are images of
the single shared entry vEdges[c+1][r]. -/
theorem right_boundary_world_eq_left (b : Board) (r c : ℕ) (ox oy : ℤ) :
    pieceRightBoundaryWorld b r c ox oy = pieceLeftBoundaryWorld b r (c + 1) ox oy := by
  unfold pieceRightBoundaryWorld pieceLeftBoundaryWorld pieceRightBoundary pieceLeftBoundary
  rw [List.map_map, List.map_map]
  apply List.map_congr_left
  intro e _
  simp only [Function.comp_apply]
  have h1 : (b.originX : ℤ) + (c : ℤ) * b.cellW + (b.cellW + e.1) + ox =
      (b.originX : ℤ) + ((c : ℕ) + 1 : ℕ) * b.cellW + e.1 + ox := by push_cast; ring
  rw [h1]

/-- C1 counterexample.  Scenario A (1 by 2 board, cluster of piece 1 parked at
(3,0), cluster of piece 0 dragged to (50,0)): the ideal aligning offset for
piece 0 towards piece 1 is (53,0) and the drag is within snapDistance of it,
but after release no cluster holds the ideal offset: the merge keeps the
stationary cluster's offset (3,0), discarding the snapped value.  Scenario B
(1 by 3 board, cluster of piece 0 parked at (95,0), cluster of piece 1
dragged to (48,0)): piece 1 and its right neighbour piece 2 satisfy the
snap hypothesis (distance 2), yet release merges piece 1 with the LEFT
neighbour instead (scanned first, distance 3), leaving pieces 1 and 2 in
different clusters: the claimed conclusion fails for the pair (1, 2). -/
theorem snap_ideal_cex :
    ((mkPiece ⟨1, 2, 50, 50, 0, 0⟩ 0 1).tx + 3 - (mkPiece ⟨1, 2, 50, 50, 0, 0⟩ 0 0).tx = 53 ∧
     (mkPiece ⟨1, 2, 50, 50, 0, 0⟩ 0 1).ty + 0 - (mkPiece ⟨1, 2, 50, 50, 0, 0⟩ 0 0).ty = 0) ∧
    Real.sqrt (((53 - 50 : ℤ) : ℝ) ^ 2 + ((0 - 0 : ℤ) : ℝ) ^ 2) ≤ 14 ∧
    (trySnapAndMerge snapBoardA 0).groups =
      [{ id := 1, members := [1, 0], px := 3, py := 0 }] ∧
    (∀ g ∈ (trySnapAndMerge snapBoardA 0).groups, g.px ≠ 53) ∧
    Real.sqrt (((50 - 48 : ℤ) : ℝ) ^ 2 + ((0 - 0 : ℤ) : ℝ) ^ 2) ≤ 14 ∧
    (trySnapAndMerge snapBoardB 1).pieceToGroup 1 = some 0 ∧
    (trySnapAndMerge snapBoardB 1).pieceToGroup 2 = some 2 ∧
    (some 0 ≠ some (2 : ℕ)) := by
  refine ⟨by decide, ?_, by decide, by decide, ?_, by decide, by decide, by decide⟩
  · have h9 : Real.sqrt (((53 - 50 : ℤ) : ℝ) ^ 2 + ((0 - 0 : ℤ) : ℝ) ^ 2) =
        Real.sqrt 9 := by norm_num
    rw [h9, show (9 : ℝ) = 3 ^ 2 by norm_num, Real.sqrt_sq (by norm_num : (0 : ℝ) ≤ 3)]
    norm_num
  · have h4 : Real.sqrt (((50 - 48 : ℤ) : ℝ) ^ 2 + ((0 - 0 : ℤ) : ℝ) ^ 2) =
        Real.sqrt 4 := by norm_num
    rw [h4, show (4 : ℝ) = 2 ^ 2 by norm_num, Real.sqrt_sq (by norm_num : (0 : ℝ) ≤ 2)]
    norm_num


/-- Writing a cluster offset commutes with cluster lookup: the looked-up
cluster has its offset replaced when its id is the written one, and is
unchanged otherwise. -/
theorem findCluster_setClusterPos (s : PState) (cid : ℕ) (x y : ℤ) (gid : ℕ) :
    findCluster (setClusterPos s cid x y) gid =
      (findCluster s gid).map
        (fun g => if g.id = cid then { g with px := x, py := y } else g) := by
  unfold findCluster setClusterPos
  rw [List.find?_map]
  have hfun : ((fun g : Cluster => g.id == gid) ∘
      fun g => if g.id = cid then { g with px := x, py := y } else g) =
      (fun g : Cluster => g.id == gid) := by
    funext g
    by_cases h : g.id = cid
    · simp [Function.comp, h]
    · simp [Function.comp, h]
  rw [hfun]

/-- Writing a cluster offset does not change the registered cluster ids. -/
theorem clusterIds_setClusterPos (s : PState) (cid : ℕ) (x y : ℤ) :
    clusterIds (setClusterPos s cid x y) = clusterIds s := by
  unfold clusterIds setClusterPos
  rw [List.map_map]
  apply List.map_congr_left
  intro g _
  by_cases h : g.id = cid
  · simp [Function.comp, h]
  · simp [Function.comp, h]

/-- Every id of either merged cluster ends up in the combined member set
produced by the Set.add loop of _mergeGroups. -/
theorem mem_mergedMembers_of (gA gB : Cluster) (x : ℕ)
    (hx : x ∈ gA.members ∨ x ∈ gB.members) : x ∈ mergedMembers gA gB := by
  unfold mergedMembers
  by_cases hb : x ∈ (mergeBase gA gB).members
  · exact List.mem_append_left _ hb
  · apply List.mem_append_right
    rw [List.mem_filter]
    have hadd : x ∈ (mergeAdd gA gB).members := by
      rcases merge_pair gA gB with ⟨h1, h2⟩ | ⟨h1, h2⟩ <;> rw [h1] at hb <;> rw [h2] <;> tauto
    exact ⟨hadd, by simpa using hb⟩

/-- In a well-formed state the cluster the index names for a piece id really
contains that id. -/
theorem member_of_own_cluster {s : PState} (hwf : WF s) {pid gid : ℕ} {g : Cluster}
    (hidx : s.pieceToGroup pid = some gid) (hg : findCluster s gid = some g)
    (hpid : pid ∈ pieceIds s) : pid ∈ g.members := by
  obtain ⟨hnodP, hnodC, hperm, hio⟩ := hwf
  obtain ⟨g2, hg2mem, hg2idx, hg2has⟩ := hio pid hpid
  have hid2 : g2.id = gid := by
    rw [hidx] at hg2idx
    exact (Option.some.inj hg2idx).symm
  have hfind2 : findCluster s gid = some g2 := by
    have h := findCluster_of_mem hnodC hg2mem
    rwa [hid2] at h
  have : g2 = g := Option.some.inj (hfind2.symm.trans hg)
  exact this ▸ hg2has

/-- In a well-formed state the member sets of two distinct registered
clusters are disjoint. -/
theorem members_disjoint {s : PState} (hwf : WF s) {g g' : Cluster}
    (hg : g ∈ s.groups) (hg' : g' ∈ s.groups) (hne : g ≠ g')
    {pid : ℕ} (hpid : pid ∈ g.members) : pid ∉ g'.members := by
  obtain ⟨hnodP, hnodC, hperm, hio⟩ := hwf
  have hnodall : (allMembers s).Nodup := hperm.nodup_iff.mpr hnodP
  have hsplit := List.nodup_flatMap.mp hnodall
  have hpair : s.groups.Pairwise (fun a b => ∀ x ∈ a.members, x ∉ b.members) := by
    refine hsplit.2.imp ?_
    intro a b hd x hx hx'
    exact hd hx hx'
  have hsymm : Symmetric (fun a b : Cluster => ∀ x ∈ a.members, x ∉ b.members) := by
    intro a b h x hxb hxa
    exact h x hxa hxb
  exact hpair.forall hsymm hg hg' hne pid hpid

/-- A piece returned by the member loop of _hitTest is one of the scanned
pieces. -/
theorem hitTestMembers_some_mem (inPath : Piece → ℚ → ℚ → Bool) (x y : ℚ) (g : Cluster) :
    ∀ ps : List Piece, ∀ p : Piece, hitTestMembers inPath x y g ps = some p → p ∈ ps := by
  intro ps
  induction ps with
  | nil => intro p hp; simp [hitTestMembers] at hp
  | cons q rest ih =>
    intro p hp
    unfold hitTestMembers at hp
    by_cases hguard : x < ((q.tx + g.px : ℤ) : ℚ) ∨ y < ((q.ty + g.py : ℤ) : ℚ) ∨
        x > ((q.tx + g.px : ℤ) : ℚ) + (q.sw : ℚ) ∨ y > ((q.ty + g.py : ℤ) : ℚ) + (q.sh : ℚ)
    · rw [if_pos hguard] at hp
      exact List.mem_cons_of_mem q (ih p hp)
    · rw [if_neg hguard] at hp
      by_cases hin : inPath q (x - ((q.tx + g.px : ℤ) : ℚ)) (y - ((q.ty + g.py : ℤ) : ℚ)) = true
      · rw [if_pos hin] at hp
        cases hp
        exact List.mem_cons_self _ _
      · rw [if_neg hin] at hp
        exact List.mem_cons_of_mem q (ih p hp)

/-- If the cluster loop of _hitTest returns a piece, that piece is registered
in the state, some scanned cluster holds its id among its members, and the
query point lies inside the piece's bounding box under that cluster's
offset. -/
theorem hitTestClusters_some_mem (s : PState) (inPath : Piece → ℚ → ℚ → Bool) (x y : ℚ) :
    ∀ gs : List Cluster, ∀ p : Piece, hitTestClusters s inPath x y gs = some p →
      ∃ g ∈ gs, p.id ∈ g.members ∧ p ∈ s.pieces ∧
        ¬ (x < ((p.tx + g.px : ℤ) : ℚ) ∨ y < ((p.ty + g.py : ℤ) : ℚ) ∨
           x > ((p.tx + g.px : ℤ) : ℚ) + (p.sw : ℚ) ∨ y > ((p.ty + g.py : ℤ) : ℚ) + (p.sh : ℚ)) := by
  intro gs
  induction gs with
  | nil => intro p hp; simp [hitTestClusters] at hp
  | cons g rest ih =>
    intro p hp
    unfold hitTestClusters at hp
    cases hmem : hitTestMembers inPath x y g ((g.members.filterMap (pieceById s)).reverse) with
    | some q =>
      rw [hmem] at hp
      cases hp
      have hmemlist := hitTestMembers_some_mem inPath x y g _ _ hmem
      rw [List.mem_reverse] at hmemlist
      obtain ⟨pid, hpidmem, hpb⟩ := List.mem_filterMap.mp hmemlist
      have hppieces : p ∈ s.pieces := List.mem_of_find?_eq_some hpb
      have hpid : p.id = pid := by
        have h := List.find?_some hpb
        simpa using h
      exact ⟨g, List.mem_cons_self g rest, hpid ▸ hpidmem, hppieces,
        hitTestMembers_some_inside inPath x y g _ _ hmem⟩
    | none =>
      rw [hmem] at hp
      obtain ⟨g', hg', hmem', hpieces', hout⟩ := ih p hp
      exact ⟨g', List.mem_cons_of_mem g hg', hmem', hpieces', hout⟩

/-- Concrete evaluation on the fresh 1 by 2 board: the query point (52,25)
lies 2 units right of piece 0's cell rectangle, within the wave amplitude 4
of the shared interior edge, so piece 0's drawn wavy boundary can contain
it; the path oracle reports exactly that (inside piece 0's path only).
_hitTest still returns nothing: piece 1's rectangle admits the point but the
oracle rejects, and piece 0 is discarded by the bounding-box guard before
its path is ever tested. -/
theorem hitTest_bulge12 :
    hitTest (initState ⟨1, 2, 50, 50, 0, 0⟩ 14 true (fun n => n))
      (fun p _ _ => p.id == 0) 52 25 = none := by
  have hm1 : hitTestMembers (fun p _ _ => p.id == 0) 52 25 ⟨1, [1], 0, 0⟩
      [(⟨1, 0, 1, 50, 0, 50, 50⟩ : Piece)] = none := by
    unfold hitTestMembers
    rw [if_neg, if_neg]
    · rfl
    · decide
    · push_cast
      norm_num
  have hm0 : hitTestMembers (fun p _ _ => p.id == 0) 52 25 ⟨0, [0], 0, 0⟩
      [(⟨0, 0, 0, 0, 0, 50, 50⟩ : Piece)] = none := by
    unfold hitTestMembers
    rw [if_pos]
    · rfl
    · right; right; left
      push_cast
      norm_num
  unfold hitTest
  rw [show (initState ⟨1, 2, 50, 50, 0, 0⟩ 14 true (fun n => n)).groups.reverse =
    [⟨1, [1], 0, 0⟩, ⟨0, [0], 0, 0⟩] from rfl]
  unfold hitTestClusters
  have hf1 : (([1] : List ℕ).filterMap
      (pieceById (initState ⟨1, 2, 50, 50, 0, 0⟩ 14 true (fun n => n)))).reverse =
      [(⟨1, 0, 1, 50, 0, 50, 50⟩ : Piece)] := rfl
  rw [hf1, hm1]
  show hitTestClusters (initState ⟨1, 2, 50, 50, 0, 0⟩ 14 true (fun n => n))
    (fun p _ _ => p.id == 0) 52 25 [⟨0, [0], 0, 0⟩] = none
  unfold hitTestClusters
  have hf0 : (([0] : List ℕ).filterMap
      (pieceById (initState ⟨1, 2, 50, 50, 0, 0⟩ 14 true (fun n => n)))).reverse =
      [(⟨0, 0, 0, 0, 0, 50, 50⟩ : Piece)] := rfl
  rw [hf0, hm0]
  rfl

/-- C10: in a well-formed state, _hitTest never returns a piece when the
query point lies strictly outside that piece's axis-aligned cell rectangle
placed at the piece's own cluster's offset — even though the piece's wavy
drawn boundary (whose lateral bulges extend up to the wave amplitude beyond
the rectangle) may contain the point: the scan only ever tests the piece
against its own cluster's offset, and the bounding-box guard rejects it
before the exact path test runs.  Consequently a point inside a piece's
drawn boundary can produce no hit at all: on the fresh 1 by 2 board the
point (52,25), 2 units right of piece 0's rectangle and within the wave
amplitude 4 of the shared edge, with a path oracle reporting it inside
piece 0's path only, yields none. -/
theorem hitTest_outside_rect_never_hits (s : PState) (inPath : Piece → ℚ → ℚ → Bool)
    (x y : ℚ) (P : Piece) (gid : ℕ) (g : Cluster)
    (hwf : WF s)
    (hidx : s.pieceToGroup P.id = some gid)
    (hg : findCluster s gid = some g)
    (hout : x < ((P.tx + g.px : ℤ) : ℚ) ∨ y < ((P.ty + g.py : ℤ) : ℚ) ∨
      x > ((P.tx + g.px : ℤ) : ℚ) + (P.sw : ℚ) ∨ y > ((P.ty + g.py : ℤ) : ℚ) + (P.sh : ℚ)) :
    hitTest s inPath x y ≠ some P ∧
    hitTest (initState ⟨1, 2, 50, 50, 0, 0⟩ 14 true (fun n => n))
      (fun p _ _ => p.id == 0) 52 25 = none := by
  constructor
  · intro habs
    obtain ⟨g', hg'rev, hPmem, hPpieces, hnot⟩ :=
      hitTestClusters_some_mem s inPath x y s.groups.reverse P habs
    have hg'mem : g' ∈ s.groups := List.mem_reverse.mp hg'rev
    have hPid : P.id ∈ pieceIds s := List.mem_map_of_mem _ hPpieces
    have hPg : P.id ∈ g.members := member_of_own_cluster hwf hidx hg hPid
    have hgmem : g ∈ s.groups := (findCluster_some hg).1
    by_cases heq : g' = g
    · subst heq
      exact hnot hout
    · exact (members_disjoint hwf hg'mem hgmem heq hPmem) hPg
  · exact hitTest_bulge12

/-- C10 witness: on the fresh 1 by 2 board, the point (120,10) lies strictly
right of piece 1's rectangle at its own cluster's offset (0,0), and _hitTest
with an always-true oracle does not return piece 1. -/
theorem hitTest_outside_rect_never_hits_witness :
    WF (initState ⟨1, 2, 50, 50, 0, 0⟩ 14 true (fun n => n)) ∧
    (initState ⟨1, 2, 50, 50, 0, 0⟩ 14 true (fun n => n)).pieceToGroup 1 = some 1 ∧
    ((120 : ℚ) < ((50 + 0 : ℤ) : ℚ) ∨ (10 : ℚ) < ((0 + 0 : ℤ) : ℚ) ∨
      (120 : ℚ) > ((50 + 0 : ℤ) : ℚ) + ((50 : ℤ) : ℚ) ∨
      (10 : ℚ) > ((0 + 0 : ℤ) : ℚ) + ((50 : ℤ) : ℚ)) ∧
    hitTest (initState ⟨1, 2, 50, 50, 0, 0⟩ 14 true (fun n => n)) (fun _ _ _ => true) 120 10 ≠
      some ⟨1, 0, 1, 50, 0, 50, 50⟩ := by
  have hout : (120 : ℚ) < ((50 + 0 : ℤ) : ℚ) ∨ (10 : ℚ) < ((0 + 0 : ℤ) : ℚ) ∨
      (120 : ℚ) > ((50 + 0 : ℤ) : ℚ) + ((50 : ℤ) : ℚ) ∨
      (10 : ℚ) > ((0 + 0 : ℤ) : ℚ) + ((50 : ℤ) : ℚ) := by
    right; right; left
    push_cast
    norm_num
  refine ⟨WF_board12, by decide, hout, ?_⟩
  exact (hitTest_outside_rect_never_hits (initState ⟨1, 2, 50, 50, 0, 0⟩ 14 true (fun n => n))
    (fun _ _ _ => true) 120 10 ⟨1, 0, 1, 50, 0, 50, 50⟩ 1 ⟨1, [1], 0, 0⟩
    WF_board12 (by decide) (by decide) hout).1


/-- Combined account of one _mergeGroups call holding two specified piece
ids, one per cluster: the count drops by one and one surviving cluster holds
both ids, carries the larger side's offset (second argument on ties), and
the index maps both ids to it. -/
theorem mergeGroups_combined (s2 : PState) (aId bId : ℕ) (gA gB : Cluster)
    (hA : findCluster s2 aId = some gA) (hB : findCluster s2 bId = some gB)
    (hne : aId ≠ bId) (hnod : (clusterIds s2).Nodup)
    (pa qa : ℕ)
    (hpa : pa ∈ gA.members) (hqa : qa ∈ gB.members)
    (hpnotB : pa ∉ gB.members) (hqnotA : qa ∉ gA.members)
    (hpidx : s2.pieceToGroup pa = some aId) (hqidx : s2.pieceToGroup qa = some bId) :
    (mergeGroups s2 aId bId).groups.length + 1 = s2.groups.length ∧
    ∃ g' ∈ (mergeGroups s2 aId bId).groups,
      pa ∈ g'.members ∧ qa ∈ g'.members ∧
      (mergeGroups s2 aId bId).pieceToGroup pa = some g'.id ∧
      (mergeGroups s2 aId bId).pieceToGroup qa = some g'.id ∧
      g'.px = (if gA.members.length ≤ gB.members.length then gB.px else gA.px) ∧
      g'.py = (if gA.members.length ≤ gB.members.length then gB.py else gA.py) := by
  obtain ⟨hgAmem, hgAid⟩ := findCluster_some hA
  obtain ⟨hgBmem, hgBid⟩ := findCluster_some hB
  obtain ⟨t, hperm1, hperm2, htids, htnod, hidne, hmap3, hpieces3, hboard3⟩ :=
    mergeGroups_spec s2 aId bId gA gB hA hB hne hnod
  constructor
  · have hlen2 := hperm2.length_eq
    have hlen1 := hperm1.length_eq
    simp only [List.length_cons] at hlen1 hlen2
    omega
  · refine ⟨{ mergeBase gA gB with members := mergedMembers gA gB },
      ?_, ?_, ?_, ?_, ?_, ?_, ?_⟩
    · exact (hperm2.mem_iff).mpr (List.mem_cons_self _ _)
    · exact mem_mergedMembers_of gA gB pa (Or.inl hpa)
    · exact mem_mergedMembers_of gA gB qa (Or.inr hqa)
    · show (mergeGroups s2 aId bId).pieceToGroup pa = some (mergeBase gA gB).id
      have happ : (mergeGroups s2 aId bId).pieceToGroup pa =
          if pa ∈ (mergeAdd gA gB).members then some (mergeBase gA gB).id
          else s2.pieceToGroup pa := by rw [hmap3]
      rcases merge_pair gA gB with ⟨hbase, hadd⟩ | ⟨hbase, hadd⟩
      · rw [happ, if_pos (by rw [hadd]; exact hpa)]
      · rw [happ, if_neg (by rw [hadd]; exact hpnotB), hpidx, hbase]
        exact congrArg some hgAid.symm
    · show (mergeGroups s2 aId bId).pieceToGroup qa = some (mergeBase gA gB).id
      have happ : (mergeGroups s2 aId bId).pieceToGroup qa =
          if qa ∈ (mergeAdd gA gB).members then some (mergeBase gA gB).id
          else s2.pieceToGroup qa := by rw [hmap3]
      rcases merge_pair gA gB with ⟨hbase, hadd⟩ | ⟨hbase, hadd⟩
      · rw [happ, if_neg (by rw [hadd]; exact hqnotA), hqidx, hbase]
        exact congrArg some hgBid.symm
      · rw [happ, if_pos (by rw [hadd]; exact hqa)]
    · show (mergeBase gA gB).px = if gA.members.length ≤ gB.members.length then gB.px else gA.px
      unfold mergeBase
      by_cases hc : gA.members.length ≤ gB.members.length
      · rw [if_pos (show gB.members.length ≥ gA.members.length from hc), if_pos hc]
      · rw [if_neg (show ¬ gB.members.length ≥ gA.members.length from hc), if_neg hc]
    · show (mergeBase gA gB).py = if gA.members.length ≤ gB.members.length then gB.py else gA.py
      unfold mergeBase
      by_cases hc : gA.members.length ≤ gB.members.length
      · rw [if_pos (show gB.members.length ≥ gA.members.length from hc), if_pos hc]
      · rw [if_neg (show ¬ gB.members.length ≥ gA.members.length from hc), if_neg hc]

/-- C1 amended: for any well-formed state and any two grid-adjacent pieces
P at (r,c) and Q at (r,c+1) lying in different clusters, if the distance
from P's cluster's offset to the ideal aligning offset towards Q is at most
snapDistance and Q is the neighbour the release scan reaches (the scan
stops at its first qualifying neighbour), then the release snap fires: it
writes the ideal offset to P's cluster, merges the two clusters and stops
scanning further neighbours; afterwards the cluster count has dropped by
one and a surviving cluster holds both piece ids, with the index mapping
both pieces to it.  Its offset is the offset of whichever cluster had at
least as many members — Q's cluster's own offset when Q's cluster is at
least as large (ties included), the snapped ideal only when P's cluster was
strictly larger — so the post-merge offset is in general not the ideal
value.  Because both pieces share that single offset, the shared edge has
zero positional error: every point of P's right-facing boundary polyline
coincides exactly with the corresponding point of Q's left-facing boundary
polyline in world coordinates. -/
theorem snap_merge_amended (s : PState) (b : Board) (r c : ℕ) (p q : Piece)
    (gid gidQ : ℕ) (gM gQ : Cluster) (rest : List Piece)
    (hwf : WF s)
    (_hp : p = mkPiece b r c) (_hq : q = mkPiece b r (c + 1))
    (hpids : p.id ∈ pieceIds s) (hqids : q.id ∈ pieceIds s)
    (hpidx : s.pieceToGroup p.id = some gid)
    (hmap : s.pieceToGroup q.id = some gidQ)
    (hne : gidQ ≠ gid)
    (hM : findCluster s gid = some gM) (hQ : findCluster s gidQ = some gQ)
    (hdist : Real.sqrt (((q.tx + gQ.px - p.tx - gM.px : ℤ) : ℝ) ^ 2 +
        ((q.ty + gQ.py - p.ty - gM.py : ℤ) : ℝ) ^ 2) ≤ (s.snapDistance : ℝ)) :
    tryNeighbors s gid p (q :: rest) =
      (mergeGroups (setClusterPos s gid (q.tx + gQ.px - p.tx) (q.ty + gQ.py - p.ty)) gid gidQ,
        true) ∧
    (tryNeighbors s gid p (q :: rest)).1.groups.length + 1 = s.groups.length ∧
    ∃ g' ∈ (tryNeighbors s gid p (q :: rest)).1.groups,
      p.id ∈ g'.members ∧ q.id ∈ g'.members ∧
      (tryNeighbors s gid p (q :: rest)).1.pieceToGroup p.id = some g'.id ∧
      (tryNeighbors s gid p (q :: rest)).1.pieceToGroup q.id = some g'.id ∧
      g'.px = (if gM.members.length ≤ gQ.members.length then gQ.px else q.tx + gQ.px - p.tx) ∧
      g'.py = (if gM.members.length ≤ gQ.members.length then gQ.py else q.ty + gQ.py - p.ty) ∧
      pieceRightBoundaryWorld b r c g'.px g'.py =
        pieceLeftBoundaryWorld b r (c + 1) g'.px g'.py := by
  obtain ⟨hgMmem, hgMid⟩ := findCluster_some hM
  obtain ⟨hgQmem, hgQid⟩ := findCluster_some hQ
  have hok : snapOk (q.tx + gQ.px - p.tx - gM.px) (q.ty + gQ.py - p.ty - gM.py)
      s.snapDistance = true := (snapOk_iff _ _ _).mpr hdist
  have hT := tryNeighbors_cons_hit s gid p q rest gidQ gQ gM hmap hne hQ hM hok
  have hpmem : p.id ∈ gM.members := member_of_own_cluster hwf hpidx hM hpids
  have hqmem : q.id ∈ gQ.members := member_of_own_cluster hwf hmap hQ hqids
  have hgne : gM ≠ gQ := by
    intro he
    apply hne
    rw [← hgQid, ← he, hgMid]
  have hqnotM : q.id ∉ gM.members := members_disjoint hwf hgQmem hgMmem (Ne.symm hgne) hqmem
  have hpnotQ : p.id ∉ gQ.members := members_disjoint hwf hgMmem hgQmem hgne hpmem
  have hM2 : findCluster (setClusterPos s gid (q.tx + gQ.px - p.tx) (q.ty + gQ.py - p.ty)) gid =
      some { gM with px := q.tx + gQ.px - p.tx, py := q.ty + gQ.py - p.ty } := by
    rw [findCluster_setClusterPos, hM]
    simp [hgMid]
  have hQ2 : findCluster (setClusterPos s gid (q.tx + gQ.px - p.tx) (q.ty + gQ.py - p.ty)) gidQ =
      some gQ := by
    rw [findCluster_setClusterPos, hQ]
    have hno : ¬ (gQ.id = gid) := by rw [hgQid]; exact hne
    simp [hno]
  have hnod2 : (clusterIds (setClusterPos s gid (q.tx + gQ.px - p.tx)
      (q.ty + gQ.py - p.ty))).Nodup := by
    rw [clusterIds_setClusterPos]
    exact hwf.2.1
  obtain ⟨hlen, g', hg'mem, hpg, hqg, hpidx', hqidx', hpx, hpy⟩ :=
    mergeGroups_combined (setClusterPos s gid (q.tx + gQ.px - p.tx) (q.ty + gQ.py - p.ty))
      gid gidQ { gM with px := q.tx + gQ.px - p.tx, py := q.ty + gQ.py - p.ty } gQ
      hM2 hQ2 (Ne.symm hne) hnod2 p.id q.id hpmem hqmem hpnotQ hqnotM hpidx hmap
  refine ⟨hT, ?_, ?_⟩
  · rw [hT]
    have hl2 : (setClusterPos s gid (q.tx + gQ.px - p.tx)
        (q.ty + gQ.py - p.ty)).groups.length = s.groups.length := List.length_map _ _
    show (mergeGroups (setClusterPos s gid (q.tx + gQ.px - p.tx) (q.ty + gQ.py - p.ty))
      gid gidQ).groups.length + 1 = s.groups.length
    omega
  · rw [hT]
    exact ⟨g', hg'mem, hpg, hqg, hpidx', hqidx', hpx, hpy,
      right_boundary_world_eq_left b r c _ _⟩

/-- C1 amended witness: on a fresh 1 by 2 board, grab piece 0 and drag its
cluster to (47, 0), at distance 3 from the ideal aligning offset (50, 0)
towards piece 1; the state is well-formed and the release scan on piece 0
merges the two clusters, dropping the cluster count from 2 to 1. -/
theorem snap_merge_amended_witness :
    WF (dragBoard12P0 47 0) ∧
    Real.sqrt (((50 + 0 - 0 - 47 : ℤ) : ℝ) ^ 2 + ((0 + 0 - 0 - 0 : ℤ) : ℝ) ^ 2) ≤
      ((dragBoard12P0 47 0).snapDistance : ℝ) ∧
    (tryNeighbors (dragBoard12P0 47 0) 0 ⟨0, 0, 0, 0, 0, 50, 50⟩
        [⟨1, 0, 1, 50, 0, 50, 50⟩]).1.groups.length + 1 =
      (dragBoard12P0 47 0).groups.length := by
  have hwf : WF (dragBoard12P0 47 0) := by
    refine ⟨by decide, by decide, by decide, ?_⟩
    unfold IndexOk
    decide
  have hdist : Real.sqrt (((50 + 0 - 0 - 47 : ℤ) : ℝ) ^ 2 + ((0 + 0 - 0 - 0 : ℤ) : ℝ) ^ 2) ≤
      ((dragBoard12P0 47 0).snapDistance : ℝ) := by
    rw [show (dragBoard12P0 47 0).snapDistance = (14 : ℤ) from rfl]
    have h9 : Real.sqrt (((50 + 0 - 0 - 47 : ℤ) : ℝ) ^ 2 + ((0 + 0 - 0 - 0 : ℤ) : ℝ) ^ 2) =
        Real.sqrt 9 := by norm_num
    rw [h9, show (9 : ℝ) = 3 ^ 2 by norm_num, Real.sqrt_sq (by norm_num : (0 : ℝ) ≤ 3)]
    norm_num
  refine ⟨hwf, hdist, ?_⟩
  exact (snap_merge_amended (dragBoard12P0 47 0) ⟨1, 2, 50, 50, 0, 0⟩ 0 0
    ⟨0, 0, 0, 0, 0, 50, 50⟩ ⟨1, 0, 1, 50, 0, 50, 50⟩ 0 1 ⟨0, [0], 47, 0⟩ ⟨1, [1], 0, 0⟩ []
    hwf (by decide) (by decide) (by decide) (by decide) (by decide) (by decide) (by decide)
    (by decide) (by decide) hdist).2.1
